import Mathlib

/-!
Verification of the devcontainer orchestrator core (config merge, config
validation, variable expansion, feature option resolution, feature identity
keys, archive extraction path safety, lifecycle sequencing, and the feature
ordering engine) against its natural-language specification.

The Go code is shallowly embedded: Go maps become association lists (iterated
in list order where Go iterates a map in unspecified order), Go slices become
lists, nil-able pointers become `Option`, and fallible functions return
`Except String`.  Deep-copy helpers (`cloneConfig` and friends) are the
identity in this value semantics and are inlined.
-/

namespace Godev

/-- FeatureOptionValue models the Go struct holding `String *string` and
`Bool *bool`; the JSON decoder guarantees at most one is set, and the zero
value (both nil) is the `missing` case. -/
inductive FeatureOptionValue where
  | str (s : String)
  | bool (b : Bool)
  | missing
deriving DecidableEq, Repr

/-- FeatureOptions is Go's `map[string]FeatureOptionValue` as an association
list. -/
abbrev FeatureOptions := List (String × FeatureOptionValue)

/-- FeatureSet is Go's `map[string]FeatureOptions` as an association list. -/
abbrev FeatureSet := List (String × FeatureOptions)

structure LifecycleCommand where
  shell : String
  exec : List String
deriving DecidableEq, Repr

structure NamedLifecycleCommand where
  name : String
  command : LifecycleCommand
deriving DecidableEq, Repr

structure LifecycleCommands where
  single : Option LifecycleCommand
  parallel : List NamedLifecycleCommand
deriving DecidableEq, Repr

/-- lcIsZero embeds `(*LifecycleCommands).IsZero`, which treats a nil
receiver as zero as well. -/
def lcIsZero : Option LifecycleCommands → Bool
  | none => true
  | some c => c.single.isNone && c.parallel.isEmpty

structure MountSpec where
  raw : String
  type : String
  source : String
  target : String
deriving DecidableEq, Repr

structure DevcontainerBuild where
  dockerfile : String
  context : String
  args : List (String × String)
  target : String
  cacheFrom : List String
  options : List String
deriving DecidableEq, Repr

structure DevcontainerConfig where
  name : String
  image : String
  build : Option DevcontainerBuild
  dockerComposeFile : List String
  service : String
  runServices : List String
  shutdownAction : String
  forwardPorts : List String
  appPort : List String
  containerEnv : List (String × String)
  mounts : List MountSpec
  workspaceMount : String
  workspaceFolder : String
  runArgs : List String
  privileged : Bool
  capAdd : List String
  securityOpt : List String
  init : Option Bool
  containerUser : String
  remoteUser : String
  remoteEnv : List (String × String)
  features : FeatureSet
  overrideFeatureInstallOrder : List String
  overrideCommand : Option Bool
  initializeCommand : Option LifecycleCommands
  onCreateCommand : Option LifecycleCommands
  updateContentCommand : Option LifecycleCommands
  postCreateCommand : Option LifecycleCommands
  postStartCommand : Option LifecycleCommands
  postAttachCommand : Option LifecycleCommands
deriving DecidableEq, Repr

/-- emptyConfig is Go's `DevcontainerConfig{}` zero value. -/
def emptyConfig : DevcontainerConfig where
  name := ""
  image := ""
  build := none
  dockerComposeFile := []
  service := ""
  runServices := []
  shutdownAction := ""
  forwardPorts := []
  appPort := []
  containerEnv := []
  mounts := []
  workspaceMount := ""
  workspaceFolder := ""
  runArgs := []
  privileged := false
  capAdd := []
  securityOpt := []
  init := none
  containerUser := ""
  remoteUser := ""
  remoteEnv := []
  features := []
  overrideFeatureInstallOrder := []
  overrideCommand := none
  initializeCommand := none
  onCreateCommand := none
  updateContentCommand := none
  postCreateCommand := none
  postStartCommand := none
  postAttachCommand := none

/-- setAssoc models assignment `m[k] = v` on a Go map embedded as an
association list: replace the binding when the key is present, otherwise
append it. -/
def setAssoc {α : Type} (m : List (String × α)) (k : String) (v : α) :
    List (String × α) :=
  if m.any (fun p => p.1 = k) then
    m.map (fun p => if p.1 = k then (k, v) else p)
  else
    m ++ [(k, v)]

/-- mergeStringMap embeds the Go helper of the same name: nil when both are
empty, otherwise base entries with overlay keys overwriting. -/
def mergeStringMap (base overlay : List (String × String)) :
    List (String × String) :=
  if base.isEmpty && overlay.isEmpty then []
  else overlay.foldl (fun m kv => setAssoc m kv.1 kv.2) base

/-- mergeBuild embeds the Go helper: nil-propagation, then field-wise
overlay-wins for scalars, key-overwrite for args, concatenation for
slices. -/
def mergeBuild : Option DevcontainerBuild → Option DevcontainerBuild →
    Option DevcontainerBuild
  | none, none => none
  | none, some o => some o
  | some b, none => some b
  | some b, some o =>
    some { dockerfile := if o.dockerfile ≠ "" then o.dockerfile else b.dockerfile
           context := if o.context ≠ "" then o.context else b.context
           args := mergeStringMap b.args o.args
           target := if o.target ≠ "" then o.target else b.target
           cacheFrom := b.cacheFrom ++ o.cacheFrom
           options := b.options ++ o.options }

/-- mergeInit embeds the Go helper: nil when both are nil, otherwise the
logical OR of the two dereferenced values (nil reading as false). -/
def mergeInit : Option Bool → Option Bool → Option Bool
  | none, none => none
  | b, o => some (b.getD false || o.getD false)

/-- mergeFeatureOptions embeds the Go helper: overlay keys overwrite base
keys inside one feature's option map. -/
def mergeFeatureOptions (base overlay : FeatureOptions) : FeatureOptions :=
  if base.isEmpty && overlay.isEmpty then []
  else overlay.foldl (fun m kv => setAssoc m kv.1 kv.2) base

/-- mergeFeatureSet embeds the Go helper: union of feature keys; on a
collision the option maps are merged key-by-key. -/
def mergeFeatureSet (base overlay : FeatureSet) : FeatureSet :=
  if base.isEmpty && overlay.isEmpty then []
  else
    let start := base.foldl (fun m kv => setAssoc m kv.1 kv.2) []
    overlay.foldl
      (fun m kv =>
        match m.find? (fun p => p.1 = kv.1) with
        | some existing => setAssoc m kv.1 (mergeFeatureOptions existing.2 kv.2)
        | none => m ++ [(kv.1, kv.2)])
      start

/-- MergeConfig embeds the Go function: nil handling, then a fresh config
built from base with overlay-wins scalars, concatenated slices, overwriting
maps, OR-merged booleans, and whole-value overwrite for lifecycle hooks. -/
def MergeConfig : Option DevcontainerConfig → Option DevcontainerConfig →
    DevcontainerConfig
  | none, none => emptyConfig
  | none, some o => o
  | some b, none => b
  | some base, some overlay =>
    { name := if overlay.name ≠ "" then overlay.name else base.name
      image := if overlay.image ≠ "" then overlay.image else base.image
      build := mergeBuild base.build overlay.build
      dockerComposeFile := base.dockerComposeFile ++ overlay.dockerComposeFile
      service := if overlay.service ≠ "" then overlay.service else base.service
      runServices := base.runServices ++ overlay.runServices
      shutdownAction :=
        if overlay.shutdownAction ≠ "" then overlay.shutdownAction
        else base.shutdownAction
      forwardPorts := base.forwardPorts ++ overlay.forwardPorts
      appPort := base.appPort ++ overlay.appPort
      containerEnv := mergeStringMap base.containerEnv overlay.containerEnv
      mounts := base.mounts ++ overlay.mounts
      workspaceMount :=
        if overlay.workspaceMount ≠ "" then overlay.workspaceMount
        else base.workspaceMount
      workspaceFolder :=
        if overlay.workspaceFolder ≠ "" then overlay.workspaceFolder
        else base.workspaceFolder
      runArgs := base.runArgs ++ overlay.runArgs
      privileged := base.privileged || overlay.privileged
      capAdd := base.capAdd ++ overlay.capAdd
      securityOpt := base.securityOpt ++ overlay.securityOpt
      init := mergeInit base.init overlay.init
      containerUser :=
        if overlay.containerUser ≠ "" then overlay.containerUser
        else base.containerUser
      remoteUser :=
        if overlay.remoteUser ≠ "" then overlay.remoteUser
        else base.remoteUser
      remoteEnv := mergeStringMap base.remoteEnv overlay.remoteEnv
      features := mergeFeatureSet base.features overlay.features
      overrideFeatureInstallOrder :=
        base.overrideFeatureInstallOrder ++ overlay.overrideFeatureInstallOrder
      overrideCommand :=
        if overlay.overrideCommand.isSome then overlay.overrideCommand
        else base.overrideCommand
      initializeCommand :=
        if overlay.initializeCommand.isSome then overlay.initializeCommand
        else base.initializeCommand
      onCreateCommand :=
        if overlay.onCreateCommand.isSome then overlay.onCreateCommand
        else base.onCreateCommand
      updateContentCommand :=
        if overlay.updateContentCommand.isSome then overlay.updateContentCommand
        else base.updateContentCommand
      postCreateCommand :=
        if overlay.postCreateCommand.isSome then overlay.postCreateCommand
        else base.postCreateCommand
      postStartCommand :=
        if overlay.postStartCommand.isSome then overlay.postStartCommand
        else base.postStartCommand
      postAttachCommand :=
        if overlay.postAttachCommand.isSome then overlay.postAttachCommand
        else base.postAttachCommand }

/-- isComposeConfig embeds the Go helper: compose mode is signalled by a
non-empty compose-file list or a non-empty service name. -/
def isComposeConfig (c : DevcontainerConfig) : Bool :=
  !c.dockerComposeFile.isEmpty || c.service ≠ ""

/-- validateConfig embeds the Go function: compose mode requires the file
list and the service and forbids image/build; otherwise at least one of
image or build is required. -/
def validateConfig (c : DevcontainerConfig) : Except String Unit :=
  if isComposeConfig c then
    if c.dockerComposeFile.isEmpty then
      .error "dockerComposeFile is required when using docker compose"
    else if c.service = "" then
      .error "service is required when using docker compose"
    else if c.image ≠ "" ∨ c.build.isSome = true then
      .error "dockerComposeFile cannot be combined with image or build"
    else .ok ()
  else if c.image = "" ∧ c.build = none then
    .error "devcontainer.json must specify image or build"
  else .ok ()

/-- ensureImageChecks embeds the two guard checks at the top of Go's
`ensureImage` (the rest of that function performs image pulls/builds). -/
def ensureImageChecks (c : DevcontainerConfig) : Except String Unit :=
  if c.image ≠ "" ∧ c.build.isSome = true then
    .error "both image and build are set in devcontainer.json"
  else if c.image = "" ∧ c.build = none then
    .error "devcontainer.json must specify image or build"
  else .ok ()

/-- Modelled from the spec: `exactly one of image, build, or
(dockerComposeFile+service) is present`.  Used to compare the spec's
"exactly one" rule against what `validateConfig` actually enforces. -/
def exactlyOneSource (c : DevcontainerConfig) : Bool :=
  let sources : List Bool := [c.image != "", c.build.isSome,
    !c.dockerComposeFile.isEmpty && c.service != ""]
  (sources.filter id).length = 1

/-- keysNodup states that an association list has pairwise-distinct keys,
which is an invariant of every list that embeds a Go map. -/
def keysNodup {α : Type} (m : List (String × α)) : Prop :=
  (m.map Prod.fst).Nodup

/-- ConfigWF collects the Go-map key-uniqueness invariants of the maps that
`MergeConfig` rebuilds entry by entry. -/
def ConfigWF (c : DevcontainerConfig) : Prop :=
  keysNodup c.containerEnv ∧ keysNodup c.remoteEnv ∧ keysNodup c.features

instance {α : Type} (m : List (String × α)) : Decidable (keysNodup m) := by
  unfold keysNodup; infer_instance

instance (c : DevcontainerConfig) : Decidable (ConfigWF c) := by
  unfold ConfigWF; infer_instance

/-- cfgBothImageAndBuild is a config that sets both `image` and `build` and
is not in compose mode. -/
def cfgBothImageAndBuild : DevcontainerConfig :=
  { emptyConfig with
      image := "alpine:3.19"
      build := some { dockerfile := "Dockerfile", context := "", args := [],
                      target := "", cacheFrom := [], options := [] } }

/-- cfgInitTrue has the nullable boolean `init` set to true. -/
def cfgInitTrue : DevcontainerConfig := { emptyConfig with init := some true }

/-- cfgInitFalse has the nullable boolean `init` set to false. -/
def cfgInitFalse : DevcontainerConfig := { emptyConfig with init := some false }

/-- cfgSample is a concrete well-formed config exercising several field
kinds. -/
def cfgSample : DevcontainerConfig :=
  { emptyConfig with
      name := "sample"
      image := "alpine:3.19"
      dockerComposeFile := []
      containerEnv := [("A", "1"), ("B", "2")]
      remoteEnv := [("R", "1")]
      features := [("ghcr.io/devcontainers/features/go",
        [("version", FeatureOptionValue.str "1.22")])]
      runArgs := ["--cap-add=SYS_PTRACE"]
      init := some false
      overrideCommand := some true }

/-- strStartsWith embeds Go's `strings.HasPrefix` on the underlying bytes
(modelled at the character level). -/
def strStartsWith (s p : String) : Bool :=
  p.data.isPrefixOf s.data

/-- strTrimLeading embeds Go's `strings.TrimPrefix`. -/
def strTrimLeading (s p : String) : String :=
  if strStartsWith s p then String.mk (s.data.drop p.data.length) else s

/-- splitColon2 embeds `strings.SplitN(token, ":", 2)`: the part before the
first colon and, when a colon exists, the remainder. -/
def splitColon2 : List Char → List Char × Option (List Char)
  | [] => ([], none)
  | c :: rest =>
    if c = ':' then ([], some rest)
    else
      let p := splitColon2 rest
      (c :: p.1, p.2)

def lookupStr (m : List (String × String)) (k : String) : Option String :=
  (m.find? (fun p => p.1 = k)).map (fun p => p.2)

/-- getenv embeds `os.Getenv`: the process environment is a partial map and
an unset variable reads as the empty string. -/
def getenv (env : String → Option String) (name : String) : String :=
  (env name).getD ""

/-- resolveEnvVariable embeds the Go function: split `NAME:default` at the
first colon, read NAME from the environment, and fall back to the default
only when the value is empty and a default was given. -/
def resolveEnvVariable (env : String → Option String) (token : String) :
    Except String String :=
  let parts := splitColon2 token.data
  let value := getenv env (String.mk parts.1)
  match parts.2 with
  | some dflt => if value = "" then .ok (String.mk dflt) else .ok value
  | none => .ok value

/-- resolveVariable embeds the Go function: `localEnv:`/`containerEnv:`
prefixes, then the variables map, then the container env map, then a
non-empty process environment value, otherwise the unsupported-variable
error. -/
def resolveVariable (env : String → Option String) (token : String)
    (vars containerEnv : List (String × String)) : Except String String :=
  if strStartsWith token "localEnv:" then
    resolveEnvVariable env (strTrimLeading token "localEnv:")
  else if strStartsWith token "containerEnv:" then
    let key := strTrimLeading token "containerEnv:"
    match lookupStr containerEnv key with
    | some value => .ok value
    | none => resolveEnvVariable env key
  else
    match lookupStr vars token with
    | some value => .ok value
    | none =>
      match lookupStr containerEnv token with
      | some value => .ok value
      | none =>
        let e := getenv env token
        if e ≠ "" then .ok e else .error ("unsupported variable: " ++ token)

/-- isSpaceChar models the whitespace class used by `strings.TrimSpace`
(restricted to the ASCII whitespace that appears in feature ids). -/
def isSpaceChar (c : Char) : Bool :=
  c = ' ' || c = '\t' || c = '\n' || c = '\r'

/-- trimSpace embeds `strings.TrimSpace`. -/
def trimSpace (s : String) : String :=
  String.mk (((s.data.dropWhile isSpaceChar).reverse.dropWhile isSpaceChar).reverse)

/-- FeatureOptionDefinition embeds the metadata option declaration; the
`enum`, `proposals` and `description` fields are not read by the resolver
and are omitted. -/
structure FeatureOptionDefinition where
  type : String
  default : FeatureOptionValue
deriving DecidableEq, Repr

/-- matchesType embeds the Go method: a declared type of `string` requires
the string variant, `boolean` requires the bool variant, anything else
matches nothing. -/
def FeatureOptionValue.matchesType (v : FeatureOptionValue)
    (expected : String) : Bool :=
  if expected = "string" then
    match v with
    | .str _ => true
    | _ => false
  else if expected = "boolean" then
    match v with
    | .bool _ => true
    | _ => false
  else false

/-- StringValue embeds the Go method: strings pass through, booleans render
as `true`/`false`, a missing value is an error. -/
def FeatureOptionValue.StringValue : FeatureOptionValue →
    Except String String
  | .str s => .ok s
  | .bool b => .ok (if b then "true" else "false")
  | .missing => .error "feature option value is missing"

structure ResolvedFeatureOptions where
  values : List (String × String)
  userValues : List (String × String)
deriving DecidableEq, Repr

def lookupOpt (m : FeatureOptions) (k : String) : Option FeatureOptionValue :=
  (m.find? (fun p => p.1 = k)).map (fun p => p.2)

/-- resolveDefsLoop embeds the `for name, def := range defs` loop of
`resolveFeatureOptions` (a Go map iterated here in list order): validate the
declared type and default, then record the user's value in both maps or the
default in `values` only. -/
def resolveDefsLoop (user : FeatureOptions) :
    List (String × FeatureOptionDefinition) → ResolvedFeatureOptions →
    Except String ResolvedFeatureOptions
  | [], acc => .ok acc
  | (name, d) :: rest, acc =>
    if d.type = "" then .error ("feature option " ++ name ++ " missing type")
    else if !(d.default.matchesType d.type) then
      .error ("feature option " ++ name ++ " default does not match type "
        ++ d.type)
    else
      match lookupOpt user name with
      | some value =>
        if !(value.matchesType d.type) then
          .error ("feature option " ++ name ++ " expects " ++ d.type)
        else
          match value.StringValue with
          | .error e => .error e
          | .ok sv =>
            resolveDefsLoop user rest
              { values := acc.values ++ [(name, sv)]
                userValues := acc.userValues ++ [(name, sv)] }
      | none =>
        match d.default.StringValue with
        | .error e => .error e
        | .ok dv =>
          resolveDefsLoop user rest
            { acc with values := acc.values ++ [(name, dv)] }

/-- resolveFeatureOptions embeds the Go function: user options without any
declared options are an error, unknown user options are an error when at
least one option is declared, then each declared option is resolved. -/
def resolveFeatureOptions (defs : List (String × FeatureOptionDefinition))
    (user : FeatureOptions) : Except String ResolvedFeatureOptions :=
  if user.length > 0 ∧ defs.length = 0 then
    .error "feature does not declare any options"
  else
    match user.find?
        (fun kv => !(defs.any (fun dp => dp.1 = kv.1)) && !defs.isEmpty) with
    | some kv => .error ("unsupported feature option: " ++ kv.1)
    | none => resolveDefsLoop user defs { values := [], userValues := [] }

/-- RawOptionValue models the raw JSON forms a feature option value can
take, following the first-byte dispatch in
`FeatureOptionValue.UnmarshalJSON`. -/
inductive RawOptionValue where
  | str (s : String)
  | bool (b : Bool)
  | null
  | other
deriving DecidableEq, Repr

/-- parseFeatureOptionValue embeds `FeatureOptionValue.UnmarshalJSON`:
strings and booleans are accepted, null and anything else are errors. -/
def parseFeatureOptionValue : RawOptionValue → Except String FeatureOptionValue
  | .str s => .ok (.str s)
  | .bool b => .ok (.bool b)
  | .null => .error "feature option value cannot be null"
  | .other => .error "unsupported feature option value"

/-- RawFeatureValue models the raw JSON forms of one entry of the `features`
map, following the first-byte dispatch in `FeatureSet.UnmarshalJSON`. -/
inductive RawFeatureValue where
  | null
  | str (s : String)
  | obj (fields : List (String × RawOptionValue))
  | other
deriving DecidableEq, Repr

/-- parseFeatureOptions embeds the Go helper: reject empty option keys and
decode each value. -/
def parseFeatureOptions :
    List (String × RawOptionValue) → Except String FeatureOptions
  | [] => .ok []
  | (key, value) :: rest =>
    if trimSpace key = "" then .error "feature option key cannot be empty"
    else
      match parseFeatureOptionValue value with
      | .error e => .error ("option " ++ key ++ ": " ++ e)
      | .ok parsed =>
        match parseFeatureOptions rest with
        | .error e => .error e
        | .ok opts => .ok ((key, parsed) :: opts)

/-- unmarshalFeatureSet embeds `FeatureSet.UnmarshalJSON` on an already
tokenized JSON object: empty ids are rejected, a string value `s` expands to
the option map `{version: s}`, an object value is decoded field-wise, and
anything else is rejected. -/
def unmarshalFeatureSet :
    List (String × RawFeatureValue) → Except String FeatureSet
  | [] => .ok []
  | (key, value) :: rest =>
    if trimSpace key = "" then .error "feature id cannot be empty"
    else
      match value with
      | .null => .error ("feature " ++ key ++ " options cannot be null")
      | .str version =>
        match unmarshalFeatureSet rest with
        | .error e => .error e
        | .ok fs => .ok ((key, [("version", .str version)]) :: fs)
      | .obj fields =>
        match parseFeatureOptions fields with
        | .error e => .error ("feature " ++ key ++ " options: " ++ e)
        | .ok opts =>
          match unmarshalFeatureSet rest with
          | .error e => .error e
          | .ok fs => .ok ((key, opts) :: fs)
      | .other => .error ("feature " ++ key ++ " options must be string or object")

/-- sInsert inserts into a sorted list, placing the new element before the
first entry it compares less-or-equal to; together with `stableSort` this is
the stable sort that models Go's `sort.SliceStable`/`sort.Strings`. -/
def sInsert {α : Type} (le : α → α → Bool) (a : α) : List α → List α
  | [] => [a]
  | b :: l => if le a b then a :: b :: l else b :: sInsert le a l

/-- stableSort is a stable insertion sort parameterised by a boolean
less-or-equal relation. -/
def stableSort {α : Type} (le : α → α → Bool) : List α → List α
  | [] => []
  | x :: xs => sInsert le x (stableSort le xs)

/-- charListLt is lexicographic comparison of character lists by code
point; on the valid UTF-8 contents of Go strings this coincides with Go's
byte-wise string `<`. -/
def charListLt : List Char → List Char → Bool
  | _, [] => false
  | [], _ :: _ => true
  | a :: as, b :: bs =>
    if a.toNat < b.toNat then true
    else if b.toNat < a.toNat then false
    else charListLt as bs

/-- strLt embeds Go's string `<`. -/
def strLt (a b : String) : Bool := charListLt a.data b.data

/-- strLe is the less-or-equal closure of `strLt`. -/
def strLe (a b : String) : Bool := !(strLt b a)

/-- sortStrings embeds `sort.Strings` (ascending lexicographic order). -/
def sortStrings (l : List String) : List String :=
  stableSort strLe l

/-- sortedKeys embeds the Go helper: the sorted key list of a map. -/
def sortedKeys (m : List (String × String)) : List String :=
  sortStrings (m.map (fun p => p.1))

/-- mapGetD is a Go map read `m[k]`, returning the zero value for a missing
key. -/
def mapGetD (m : List (String × String)) (k : String) : String :=
  ((m.find? (fun p => p.1 = k)).map (fun p => p.2)).getD ""

/-- utf8EncodeNat encodes one Unicode code point as UTF-8 bytes. -/
def utf8EncodeNat (n : Nat) : List Nat :=
  if n < 128 then [n]
  else if n < 2048 then [192 + n / 64, 128 + n % 64]
  else if n < 65536 then [224 + n / 4096, 128 + (n / 64) % 64, 128 + n % 64]
  else [240 + n / 262144, 128 + (n / 4096) % 64, 128 + (n / 64) % 64,
        128 + n % 64]

/-- utf8Bytes is the byte sequence of a Go string. -/
def utf8Bytes (s : String) : List Nat :=
  s.data.flatMap (fun c => utf8EncodeNat c.toNat)

/-- rotr32 is 32-bit right rotation. -/
def rotr32 (n x : Nat) : Nat :=
  ((x >>> n) ||| (x <<< (32 - n))) % 4294967296

def shaCh (x y z : Nat) : Nat := (x &&& y) ^^^ ((x ^^^ 4294967295) &&& z)

def shaMaj (x y z : Nat) : Nat := (x &&& y) ^^^ (x &&& z) ^^^ (y &&& z)

def shaBigSigma0 (x : Nat) : Nat := rotr32 2 x ^^^ rotr32 13 x ^^^ rotr32 22 x

def shaBigSigma1 (x : Nat) : Nat := rotr32 6 x ^^^ rotr32 11 x ^^^ rotr32 25 x

def shaSmallSigma0 (x : Nat) : Nat := rotr32 7 x ^^^ rotr32 18 x ^^^ (x >>> 3)

def shaSmallSigma1 (x : Nat) : Nat := rotr32 17 x ^^^ rotr32 19 x ^^^ (x >>> 10)

/-- shaK is the SHA-256 round-constant table. -/
def shaK : List Nat :=
  [1116352408, 1899447441, 3049323471,
   3921009573, 961987163, 1508970993,
   2453635748, 2870763221, 3624381080,
   310598401, 607225278, 1426881987,
   1925078388, 2162078206, 2614888103,
   3248222580, 3835390401, 4022224774,
   264347078, 604807628, 770255983,
   1249150122, 1555081692, 1996064986,
   2554220882, 2821834349, 2952996808,
   3210313671, 3336571891, 3584528711,
   113926993, 338241895, 666307205,
   773529912, 1294757372, 1396182291,
   1695183700, 1986661051, 2177026350,
   2456956037, 2730485921, 2820302411,
   3259730800, 3345764771, 3516065817,
   3600352804, 4094571909, 275423344,
   430227734, 506948616, 659060556,
   883997877, 958139571, 1322822218,
   1537002063, 1747873779, 1955562222,
   2024104815, 2227730452, 2361852424,
   2428436474, 2756734187, 3204031479,
   3329325298]

/-- shaInitH is the SHA-256 initial hash state. -/
def shaInitH : List Nat :=
  [1779033703, 3144134277, 1013904242,
   2773480762, 1359893119, 2600822924,
   528734635, 1541459225]

/-- toWords32 packs bytes into big-endian 32-bit words. -/
def toWords32 : List Nat → List Nat
  | b0 :: b1 :: b2 :: b3 :: rest =>
    (b0 * 16777216 + b1 * 65536 + b2 * 256 + b3) :: toWords32 rest
  | _ => []

/-- shaSchedule extends the 16 block words to the 64-entry message
schedule. -/
def shaSchedule (ws : List Nat) : List Nat :=
  (List.range 48).foldl
    (fun w _ =>
      let i := w.length
      w ++ [(shaSmallSigma1 (w.getD (i - 2) 0) + w.getD (i - 7) 0 +
             shaSmallSigma0 (w.getD (i - 15) 0) + w.getD (i - 16) 0)
             % 4294967296])
    ws

structure ShaState where
  a : Nat
  b : Nat
  c : Nat
  d : Nat
  e : Nat
  f : Nat
  g : Nat
  h : Nat

/-- shaRound is one round of the SHA-256 compression function. -/
def shaRound (st : ShaState) (kw : Nat × Nat) : ShaState :=
  let t1 := (st.h + shaBigSigma1 st.e + shaCh st.e st.f st.g + kw.1 + kw.2)
    % 4294967296
  let t2 := (shaBigSigma0 st.a + shaMaj st.a st.b st.c) % 4294967296
  { a := (t1 + t2) % 4294967296, b := st.a, c := st.b, d := st.c,
    e := (st.d + t1) % 4294967296, f := st.e, g := st.f, h := st.g }

/-- shaCompressBlock folds one 64-byte block into the hash state. -/
def shaCompressBlock (hs : List Nat) (block : List Nat) : List Nat :=
  let ws := shaSchedule (toWords32 block)
  let st0 : ShaState :=
    ⟨hs.getD 0 0, hs.getD 1 0, hs.getD 2 0, hs.getD 3 0,
     hs.getD 4 0, hs.getD 5 0, hs.getD 6 0, hs.getD 7 0⟩
  let st := (shaK.zip ws).foldl shaRound st0
  [(hs.getD 0 0 + st.a) % 4294967296, (hs.getD 1 0 + st.b) % 4294967296,
   (hs.getD 2 0 + st.c) % 4294967296, (hs.getD 3 0 + st.d) % 4294967296,
   (hs.getD 4 0 + st.e) % 4294967296, (hs.getD 5 0 + st.f) % 4294967296,
   (hs.getD 6 0 + st.g) % 4294967296, (hs.getD 7 0 + st.h) % 4294967296]

/-- lengthBytesBE is the 64-bit big-endian encoding of the message bit
length. -/
def lengthBytesBE (n : Nat) : List Nat :=
  [(n >>> 56) % 256, (n >>> 48) % 256, (n >>> 40) % 256, (n >>> 32) % 256,
   (n >>> 24) % 256, (n >>> 16) % 256, (n >>> 8) % 256, n % 256]

/-- shaPad appends the 0x80 marker, zero padding to 56 mod 64, and the bit
length. -/
def shaPad (msg : List Nat) : List Nat :=
  let padLen := (55 + 64 - msg.length % 64) % 64
  msg ++ 128 :: (List.replicate padLen 0 ++ lengthBytesBE (msg.length * 8))

/-- chunks64 splits a byte list into 64-byte blocks. -/
def chunks64 (l : List Nat) : List (List Nat) :=
  if h : l = [] then []
  else l.take 64 :: chunks64 (l.drop 64)
termination_by l.length
decreasing_by
  simp only [List.length_drop]
  have : 0 < l.length := List.length_pos.mpr h
  omega

/-- word32BytesBE serialises one 32-bit word as big-endian bytes. -/
def word32BytesBE (w : Nat) : List Nat :=
  [(w >>> 24) % 256, (w >>> 16) % 256, (w >>> 8) % 256, w % 256]

/-- sha256 is the SHA-256 digest (32 bytes) of a byte list, embedding Go's
`crypto/sha256`. -/
def sha256 (msg : List Nat) : List Nat :=
  ((chunks64 (shaPad msg)).foldl shaCompressBlock shaInitH).flatMap
    word32BytesBE

def hexDigitChar (n : Nat) : Char :=
  if n < 10 then Char.ofNat (48 + n) else Char.ofNat (87 + n)

/-- hexOfBytes is lowercase hex encoding, embedding `hex.EncodeToString`. -/
def hexOfBytes (bs : List Nat) : String :=
  String.mk (bs.flatMap (fun b => [hexDigitChar (b / 16), hexDigitChar (b % 16)]))

/-- hashPayload is the byte stream hashed by `hashFeatureOptions`: for each
key in sorted order, the key bytes, a NUL, the value bytes, a NUL. -/
def hashPayload (options : List (String × String)) : List Nat :=
  (sortedKeys options).flatMap
    (fun k => utf8Bytes k ++ [0] ++ utf8Bytes (mapGetD options k) ++ [0])

/-- hashFeatureOptions embeds the Go function: `"none"` for an empty map,
otherwise the lowercase hex SHA-256 of the sorted `key\0value\0` stream. -/
def hashFeatureOptions (options : List (String × String)) : String :=
  if options.isEmpty then "none"
  else hexOfBytes (sha256 (hashPayload options))

inductive FeatureSource where
  | oci
  | http
  | local
deriving DecidableEq, Repr

def sourceTag : FeatureSource → String
  | .local => "local"
  | .http => "http"
  | .oci => "oci"

/-- featureEqualityKey embeds the Go function: the source tag, the digest
and the options hash joined by colons (the `default` switch arm is the OCI
tag). -/
def featureEqualityKey (source : FeatureSource) (digest : String)
    (options : List (String × String)) : String :=
  match source with
  | .local => "local:" ++ digest ++ ":" ++ hashFeatureOptions options
  | .http => "http:" ++ digest ++ ":" ++ hashFeatureOptions options
  | .oci => "oci:" ++ digest ++ ":" ++ hashFeatureOptions options

/-- canonicalOptions is the sorted key/value view of an options map: the
data `hashFeatureOptions` actually depends on. -/
def canonicalOptions (m : List (String × String)) : List (String × String) :=
  (sortedKeys m).map (fun k => (k, mapGetD m k))

/-- FeatureMetadata is the devcontainer-feature.json payload, restricted to
the fields read by the lifecycle engine (the id and the five per-phase
hooks). -/
structure FeatureMetadata where
  id : String
  onCreateCommand : Option LifecycleCommands
  updateContentCommand : Option LifecycleCommands
  postCreateCommand : Option LifecycleCommands
  postStartCommand : Option LifecycleCommands
  postAttachCommand : Option LifecycleCommands
deriving DecidableEq, Repr

/-- ResolvedFeature carries the metadata and the ordering fields of the Go
struct (fetch-related path fields are omitted). -/
structure ResolvedFeature where
  metadata : FeatureMetadata
  options : ResolvedFeatureOptions
  dependencyKey : String
  dependsOnKeys : List String
  installsAfterIDs : List String
  installsAfterKeys : List String
  baseName : String
  tag : String
  canonicalName : String
deriving DecidableEq, Repr

instance : Inhabited ResolvedFeature :=
  ⟨⟨⟨"", none, none, none, none, none⟩, ⟨[], []⟩, "", [], [], [], "", "", ""⟩⟩

structure ResolvedFeatures where
  order : List ResolvedFeature
  containerEnv : List (String × String)
  mounts : List MountSpec
  privileged : Bool
  init : Option Bool
  capAdd : List String
  securityOpt : List String
deriving DecidableEq, Repr

/-- lifecycleOrder is the fixed in-container phase order. -/
def lifecycleOrder : List String :=
  ["onCreateCommand", "updateContentCommand", "postCreateCommand",
   "postStartCommand", "postAttachCommand"]

/-- LifecycleBehavior abstracts the runner: for a display name and a command
it yields `none` on success or an error message, standing for the exec/host
process result. -/
abbrev LifecycleBehavior := String → LifecycleCommand → Option String

/-- LifecycleCall records one runner invocation (display name and
command). -/
abbrev LifecycleCall := String × LifecycleCommand

/-- runParallelLifecycleCommands embeds the Go function: all named
sub-commands run (concurrently in Go; all of their calls appear in the
trace), and any failure makes the hook fail.  Go returns the first error
read from the join channel; this embedding determinises that choice to the
first failing command in list order. -/
def runParallelLifecycleCommands (b : LifecycleBehavior) (hookName : String)
    (commands : List NamedLifecycleCommand) :
    List LifecycleCall × Option String :=
  if commands.isEmpty then ([], none)
  else
    let calls := commands.map (fun c => (hookName ++ ":" ++ c.name, c.command))
    (calls, (calls.filterMap (fun nc => b nc.1 nc.2)).head?)

/-- runLifecycleCommands embeds the Go function: nothing for a zero value, a
single runner call for `Single`, the parallel runner for `Parallel`. -/
def runLifecycleCommands (b : LifecycleBehavior) (hookName : String)
    (commands : Option LifecycleCommands) :
    List LifecycleCall × Option String :=
  if lcIsZero commands then ([], none)
  else
    match commands with
    | none => ([], none)
    | some c =>
      match c.single with
      | some cmd => ([(hookName, cmd)], b hookName cmd)
      | none => runParallelLifecycleCommands b hookName c.parallel

/-- featureLifecycleCommands embeds the Go switch from hook name to the
feature's metadata hook. -/
def featureLifecycleCommands (hook : String) (f : ResolvedFeature) :
    Option LifecycleCommands :=
  if hook = "onCreateCommand" then f.metadata.onCreateCommand
  else if hook = "updateContentCommand" then f.metadata.updateContentCommand
  else if hook = "postCreateCommand" then f.metadata.postCreateCommand
  else if hook = "postStartCommand" then f.metadata.postStartCommand
  else if hook = "postAttachCommand" then f.metadata.postAttachCommand
  else none

def runFeatureLifecycleCommand (b : LifecycleBehavior) (hook : String)
    (f : ResolvedFeature) : List LifecycleCall × Option String :=
  let commands := featureLifecycleCommands hook f
  if lcIsZero commands then ([], none)
  else runLifecycleCommands b hook commands

/-- runFeaturesPhase is the `for _, feature := range features.Order` loop of
one phase, stopping at the first feature whose hook fails. -/
def runFeaturesPhase (b : LifecycleBehavior) (hook : String) :
    List ResolvedFeature → List LifecycleCall × Option String
  | [] => ([], none)
  | f :: fs =>
    let r := runFeatureLifecycleCommand b hook f
    match r.2 with
    | some e => (r.1, some e)
    | none =>
      let rest := runFeaturesPhase b hook fs
      (r.1 ++ rest.1, rest.2)

def lookupHook (userHooks : List (String × LifecycleCommands))
    (hook : String) : Option LifecycleCommands :=
  (userHooks.find? (fun p => p.1 = hook)).map (fun p => p.2)

/-- runHooksLoop is the outer `for _, hook := range lifecycleOrder` loop of
`runLifecycleWithFeatures`: per phase the feature hooks run first and then
the user hook; any error returns immediately. -/
def runHooksLoop (b : LifecycleBehavior) (features : List ResolvedFeature)
    (userHooks : List (String × LifecycleCommands)) :
    List String → List LifecycleCall × Option String
  | [] => ([], none)
  | hook :: rest =>
    let rf := runFeaturesPhase b hook features
    match rf.2 with
    | some e => (rf.1, some e)
    | none =>
      let ru :=
        match lookupHook userHooks hook with
        | some cmds => runLifecycleCommands b hook (some cmds)
        | none => ([], none)
      match ru.2 with
      | some e => (rf.1 ++ ru.1, some e)
      | none =>
        let rr := runHooksLoop b features userHooks rest
        (rf.1 ++ (ru.1 ++ rr.1), rr.2)

/-- runLifecycleWithFeatures embeds the Go function, with the runner
abstracted by a behavior. -/
def runLifecycleWithFeatures (b : LifecycleBehavior)
    (features : Option ResolvedFeatures)
    (userHooks : List (String × LifecycleCommands)) :
    List LifecycleCall × Option String :=
  let order := match features with
    | none => []
    | some fs => fs.order
  if userHooks.isEmpty && order.isEmpty then ([], none)
  else runHooksLoop b order userHooks lifecycleOrder

/-- Modelled from the spec: the planned lifecycle blocks, phase by phase in
the canonical order, every feature's hook (in installation order) before the
user's hook of the same phase. -/
def lifecyclePlan (features : List ResolvedFeature)
    (userHooks : List (String × LifecycleCommands)) :
    List (String × Option LifecycleCommands) :=
  lifecycleOrder.flatMap
    (fun hook =>
      features.map (fun f => (hook, featureLifecycleCommands hook f)) ++
        [(hook, lookupHook userHooks hook)])

/-- Modelled from the spec: sequential stop-on-error execution — each
planned block runs in order and the first failing block aborts everything
after it. -/
def runPlan (b : LifecycleBehavior) :
    List (String × Option LifecycleCommands) →
    List LifecycleCall × Option String
  | [] => ([], none)
  | p :: rest =>
    let r := runLifecycleCommands b p.1 p.2
    match r.2 with
    | some e => (r.1, some e)
    | none =>
      let rr := runPlan b rest
      (r.1 ++ rr.1, rr.2)

/-- splitSlash splits a character list at `/` separators, keeping empty
segments, like `strings.Split(s, "/")`. -/
def splitSlash : List Char → List String
  | [] => [""]
  | c :: rest =>
    if c = '/' then "" :: splitSlash rest
    else
      match splitSlash rest with
      | [] => [String.mk [c]]
      | s :: ss => String.mk (c :: s.data) :: ss

/-- joinSlash joins segments with `/`, like `strings.Join(l, "/")`. -/
def joinSlash : List String → List Char
  | [] => []
  | [s] => s.data
  | s :: rest => s.data ++ '/' :: joinSlash rest

/-- cleanRun is the element loop of `filepath.Clean` as a stack machine:
skip empty and `.` segments, let `..` pop a non-`..` stack top (or vanish at
the root, or accumulate when not rooted), push everything else. -/
def cleanRun (rooted : Bool) : List String → List String → List String
  | acc, [] => acc.reverse
  | acc, seg :: rest =>
    if seg = "" ∨ seg = "." then cleanRun rooted acc rest
    else if seg = ".." then
      match acc with
      | [] => cleanRun rooted (if rooted then [] else [".."]) rest
      | top :: accRest =>
        if top = ".." then cleanRun rooted (seg :: acc) rest
        else cleanRun rooted accRest rest
    else cleanRun rooted (seg :: acc) rest

def cleanSegs (rooted : Bool) (segs : List String) : List String :=
  cleanRun rooted [] segs

/-- clean embeds `filepath.Clean` (Unix rules) via the segment stack
machine. -/
def clean (p : String) : String :=
  if p = "" then "."
  else
    let rooted : Bool :=
      match p.data with
      | '/' :: _ => true
      | _ => false
    let out := cleanSegs rooted (splitSlash p.data)
    if rooted then String.mk ('/' :: joinSlash out)
    else if out = [] then "." else String.mk (joinSlash out)

/-- joinPath embeds the two-argument `filepath.Join`: empty parts are
skipped and the slash-joined result is cleaned. -/
def joinPath (a b : String) : String :=
  if a = "" then (if b = "" then "" else clean b)
  else if b = "" then clean a
  else clean (a ++ "/" ++ b)

/-- pathSegs lists the segments of a rooted clean path (empty for "/"). -/
def pathSegs (p : String) : List String :=
  if p = "/" then [] else splitSlash (p.data.drop 1)

def commonPrefixLen : List String → List String → Nat
  | a :: as, b :: bs => if a = b then commonPrefixLen as bs + 1 else 0
  | _, _ => 0

/-- relClean embeds `filepath.Rel` restricted to the rooted cleaned inputs
at which `safeExtractPath` calls it: clean both paths, strip the common
leading segments, and prefix one `..` per remaining base segment. -/
def relClean (base targ : String) : String :=
  let b := clean base
  let t := clean targ
  if b = t then "."
  else
    let bs := pathSegs b
    let ts := pathSegs t
    let k := commonPrefixLen bs ts
    let bRest := bs.drop k
    let tRest := ts.drop k
    if bRest = [] then String.mk (joinSlash tRest)
    else String.mk (joinSlash (List.replicate bRest.length ".." ++ tRest))

/-- safeExtractPath embeds the Go function: clean the entry name, join it
under the root, and reject the entry when the relative path back from the
root starts with `..`. -/
def safeExtractPath (root name : String) : Except String String :=
  let cleaned := clean name
  let target := joinPath root cleaned
  let r := relClean root target
  if strStartsWith r ".." then .error "tar entry escapes destination"
  else .ok target

inductive TarTypeflag where
  | dir
  | reg
  | symlink
  | other
deriving DecidableEq, Repr

structure TarEntry where
  name : String
  typeflag : TarTypeflag
  linkname : String
deriving DecidableEq, Repr

/-- extractPaths models the entry loop of `extractFeatureArchive`: entries
with an empty name are skipped, every other entry's name goes through
`safeExtractPath` (an escape fails the whole extraction), and only
directory, regular-file and symlink entries are materialized, at the
returned target path. -/
def extractPaths (root : String) : List TarEntry → Except String (List String)
  | [] => .ok []
  | e :: rest =>
    if e.name = "" then extractPaths root rest
    else
      match safeExtractPath root e.name with
      | .error err => .error err
      | .ok target =>
        match e.typeflag with
        | .other => extractPaths root rest
        | _ =>
          match extractPaths root rest with
          | .error err => .error err
          | .ok paths => .ok (target :: paths)

/-- GoodSeg is a path segment that is not empty, not a dot segment, and
contains no slash — the shape of every segment of a `MkdirTemp` root. -/
def GoodSeg (s : String) : Prop :=
  s ≠ "" ∧ s ≠ "." ∧ s ≠ ".." ∧ ∀ c ∈ s.data, c ≠ '/'

/-- CleanAbsRoot states that `root` is the absolute clean path with the
given non-empty segment list, as produced by `os.MkdirTemp`. -/
def CleanAbsRoot (root : String) (rp : List String) : Prop :=
  root.data = '/' :: joinSlash rp ∧ rp ≠ [] ∧ ∀ s ∈ rp, GoodSeg s

instance (s : String) : Decidable (GoodSeg s) := by
  unfold GoodSeg; infer_instance

instance (root : String) (rp : List String) :
    Decidable (CleanAbsRoot root rp) := by
  unfold CleanAbsRoot; infer_instance

/-- isDigitChar is '0'..'9'. -/
def isDigitChar (c : Char) : Bool := 48 ≤ c.toNat && c.toNat ≤ 57

/-- parseDigits parses a non-empty all-digit character list. -/
def parseDigits (cs : List Char) : Option Nat :=
  if cs = [] then none
  else if cs.all isDigitChar then
    some (cs.foldl (fun acc c => acc * 10 + (c.toNat - 48)) 0)
  else none

/-- atoiGo embeds `strconv.Atoi` (arbitrary precision; the int-range check
does not matter for version strings). -/
def atoiGo (s : String) : Option Int :=
  match s.data with
  | '+' :: rest => (parseDigits rest).map Int.ofNat
  | '-' :: rest => (parseDigits rest).map (fun n => -(Int.ofNat n))
  | cs => (parseDigits cs).map Int.ofNat

/-- splitDot splits a character list at `.` separators, keeping empty
segments, like `strings.Split(s, ".")`. -/
def splitDot : List Char → List String
  | [] => [""]
  | c :: rest =>
    if c = '.' then "" :: splitDot rest
    else
      match splitDot rest with
      | [] => [String.mk [c]]
      | s :: ss => String.mk (c :: s.data) :: ss

/-- parseSemver embeds the Go function: split on dots, every part must be a
non-empty integer. -/
def parseSemver (value : String) : Option (List Int) :=
  if value = "" then none
  else (splitDot value.data).mapM
    (fun part => if part = "" then none else atoiGo part)

/-- compareSemverTail is the zero-padded comparison of `[]` against a
remaining right-hand version suffix: the first nonzero component decides. -/
def compareSemverTail : List Int → Int
  | [] => 0
  | b :: bs => if b ≠ 0 then (if (0 : Int) < b then -1 else 1)
    else compareSemverTail bs

/-- compareSemverParts is the component-wise loop of `compareFeatureTag`,
padding the shorter version with zeros. -/
def compareSemverParts : List Int → List Int → Int
  | [], bs => compareSemverTail bs
  | a :: as, [] =>
    if a ≠ 0 then (if a < 0 then -1 else 1)
    else compareSemverParts as []
  | a :: as, b :: bs =>
    if a ≠ b then (if a < b then -1 else 1)
    else compareSemverParts as bs

/-- compareFeatureTag embeds the Go function: equal tags compare equal,
`latest` sorts after everything, two parsed semvers compare numerically,
otherwise lexicographically. -/
def compareFeatureTag (a b : String) : Int :=
  if a = b then 0
  else if a = "latest" then 1
  else if b = "latest" then -1
  else
    match parseSemver a, parseSemver b with
    | some ap, some bp => compareSemverParts ap bp
    | _, _ => if strLt a b then -1 else 1

/-- compareStringSlices embeds the Go function (shorter slice first, then
element-wise). -/
def compareStringSlices : List String → List String → Int
  | [], [] => 0
  | [], _ :: _ => -1
  | _ :: _, [] => 1
  | a :: as, b :: bs =>
    if a = b then compareStringSlices as bs
    else if strLt a b then -1 else 1

/-- valuesForKeys embeds the Go helper. -/
def valuesForKeys (values : List (String × String)) (keys : List String) :
    List String :=
  keys.map (mapGetD values)

/-- featureLess embeds the Go tie-break: baseName, tag, user-option count
(more options first), sorted user keys, their values, canonical name. -/
def featureLess (a b : ResolvedFeature) : Bool :=
  if a.baseName ≠ b.baseName then strLt a.baseName b.baseName
  else if a.tag ≠ b.tag then decide (compareFeatureTag a.tag b.tag < 0)
  else
    let aCount := a.options.userValues.length
    let bCount := b.options.userValues.length
    if aCount ≠ bCount then decide (bCount < aCount)
    else
      let aKeys := sortedKeys a.options.userValues
      let bKeys := sortedKeys b.options.userValues
      if compareStringSlices aKeys bKeys ≠ 0 then
        decide (compareStringSlices aKeys bKeys < 0)
      else
        let aValues := valuesForKeys a.options.userValues aKeys
        let bValues := valuesForKeys b.options.userValues bKeys
        if compareStringSlices aValues bValues ≠ 0 then
          decide (compareStringSlices aValues bValues < 0)
        else strLt a.canonicalName b.canonicalName

/-- canInstall embeds the Go function: all dependsOn keys and all non-empty
installsAfter keys must already be installed. -/
def canInstall (node : ResolvedFeature) (installed : List ResolvedFeature) :
    Bool :=
  node.dependsOnKeys.all
    (fun dep => installed.any (fun f => f.dependencyKey == dep)) &&
  node.installsAfterKeys.all
    (fun dep => dep == "" || installed.any (fun f => f.dependencyKey == dep))

/-- attachOne resolves one feature's installsAfter ids against the whole
feature list, appending the dependency keys of every feature whose baseName
matches (the `baseNameToKeys` lookup of `orderFeatures`, determinised to
list order). -/
def attachOne (features : List ResolvedFeature) (f : ResolvedFeature) :
    ResolvedFeature :=
  { f with installsAfterKeys := f.installsAfterKeys ++
      f.installsAfterIDs.flatMap (fun id =>
        (features.filter (fun g => g.baseName == id)).map
          (fun g => g.dependencyKey)) }

/-- attachInstallsAfterKeys embeds the first loop of `orderFeatures`: build
`baseNameToKeys` and append each feature's resolved installsAfter keys. -/
def attachInstallsAfterKeys (features : List ResolvedFeature) :
    List ResolvedFeature :=
  features.map (attachOne features)

def toLowerStr (s : String) : String :=
  String.mk (s.data.map Char.toLower)

/-- normalizeFeatureID embeds `strings.ToLower(strings.TrimSpace(id))`. -/
def normalizeFeatureID (id : String) : String :=
  toLowerStr (trimSpace id)

/-- computeOverridePriority embeds the Go function: entry at index i of an
override list of length N gets priority N - i (later duplicates
overwrite). -/
def computeOverridePriority (ids : List String) : List (String × Nat) :=
  if ids = [] then []
  else
    ids.enum.foldl
      (fun m p =>
        let normalized := normalizeFeatureID p.2
        if normalized = "" then m
        else setAssoc m normalized (ids.length - p.1)) []

/-- priorityOf is the Go map read `priority[baseName]` with zero default. -/
def priorityOf (priority : List (String × Nat)) (b : String) : Nat :=
  ((priority.find? (fun p => p.1 == b)).map (fun p => p.2)).getD 0

/-- validateOverrideUsage embeds the Go function: every override id must be
the baseName of some resolved feature. -/
def validateOverrideUsage (priority : List (String × Nat))
    (features : List ResolvedFeature) : Except String Unit :=
  if priority = [] then .ok ()
  else
    match priority.find?
        (fun p => !(features.any (fun f => f.baseName == p.1))) with
    | some p =>
      .error ("overrideFeatureInstallOrder includes unknown feature: " ++ p.1)
    | none => .ok ()

/-- nodesFn is the Go `nodes` map: the last feature with a given dependency
key wins, as Go map insertion overwrites. -/
def nodesFn (features : List ResolvedFeature) (k : String) : ResolvedFeature :=
  (features.reverse.find? (fun f => f.dependencyKey == k)).getD default

/-- orderLoop is the round-based loop of `orderFeatures`.  The Go `remaining`
set is a key list here (map iteration determinised to list order); the fuel
counts loop iterations and is unreachable at the initial value because every
round removes at least one key. -/
def orderLoop (nodes : String → ResolvedFeature)
    (priority : List (String × Nat)) :
    Nat → List String → List ResolvedFeature →
    Except String (List ResolvedFeature)
  | fuel, remaining, order =>
    match remaining with
    | [] => .ok order
    | _ :: _ =>
      let round := remaining.filter (fun k => canInstall (nodes k) order)
      if round.isEmpty then .error "feature dependency cycle detected"
      else
        match fuel with
        | 0 => .error "fuel exhausted"
        | fuel + 1 =>
          let maxPriority := round.foldl
            (fun m k => max m (priorityOf priority (nodes k).baseName)) 0
          let commitKeys := round.filter
            (fun k => priorityOf priority (nodes k).baseName == maxPriority)
          let commit := stableSort (fun x y => !(featureLess y x))
            (commitKeys.map nodes)
          orderLoop nodes priority fuel
            (remaining.filter
              (fun k => !(commit.any (fun f => f.dependencyKey == k))))
            (order ++ commit)

/-- orderFeatures embeds the Go function. -/
def orderFeatures (features : List ResolvedFeature) (override : List String) :
    Except String (List ResolvedFeature) :=
  if features.isEmpty then .ok []
  else
    let features2 := attachInstallsAfterKeys features
    let nodes := nodesFn features2
    let priority := computeOverridePriority override
    let remaining := (features2.map (fun f => f.dependencyKey)).dedup
    match orderLoop nodes priority features2.length remaining [] with
    | .error e => .error e
    | .ok order =>
      match validateOverrideUsage priority features2 with
      | .error e => .error e
      | .ok _ => .ok order

/-- featureEdgeKeys collects the ordering edges of a feature: all dependsOn
keys and the non-empty installsAfter keys. -/
def featureEdgeKeys (f : ResolvedFeature) : List String :=
  f.dependsOnKeys ++ f.installsAfterKeys.filter (fun k => k ≠ "")

/-- FeatEqv relates two views of the same feature whose attached
installsAfterKeys lists may differ in order only (the order of those keys is
immaterial to `canInstall`, which is the only reader). -/
def FeatEqv (f g : ResolvedFeature) : Prop :=
  f.metadata = g.metadata ∧ f.options = g.options ∧
  f.dependencyKey = g.dependencyKey ∧ f.dependsOnKeys = g.dependsOnKeys ∧
  f.installsAfterIDs = g.installsAfterIDs ∧
  f.installsAfterKeys.Perm g.installsAfterKeys ∧
  f.baseName = g.baseName ∧ f.tag = g.tag ∧
  f.canonicalName = g.canonicalName

/-- mkOrderFeature builds a ResolvedFeature with only the ordering-relevant
fields set, for concrete test inputs. -/
def mkOrderFeature (key baseName : String) (deps : List String) :
    ResolvedFeature :=
  { metadata := ⟨baseName, none, none, none, none, none⟩
    options := ⟨[], []⟩
    dependencyKey := key
    dependsOnKeys := deps
    installsAfterIDs := []
    installsAfterKeys := []
    baseName := baseName
    tag := ""
    canonicalName := key }

end Godev

namespace Godev

/-- Auxiliary: folding Go-map insertion over a key-distinct association list
whose keys avoid the accumulator appends all entries in order. -/
theorem foldl_setAssoc_append {α : Type} (l : List (String × α)) :
    ∀ acc : List (String × α),
      (l.map Prod.fst).Nodup →
      (∀ p ∈ l, ∀ q ∈ acc, q.1 ≠ p.1) →
      l.foldl (fun m kv => setAssoc m kv.1 kv.2) acc = acc ++ l := by
  induction l with
  | nil => intro acc _ _; simp
  | cons hd tl ih =>
    intro acc hnodup hdisj
    rw [List.map_cons, List.nodup_cons] at hnodup
    have hhd : acc.any (fun p => p.1 = hd.1) = false := by
      rw [List.any_eq_false]
      intro q hq
      simpa using hdisj hd (by simp) q hq
    simp only [List.foldl_cons]
    rw [show setAssoc acc hd.1 hd.2 = acc ++ [(hd.1, hd.2)] by
      unfold setAssoc
      rw [hhd]
      simp]
    rw [ih (acc ++ [(hd.1, hd.2)]) hnodup.2
      (by
        intro p hp q hq
        rcases List.mem_append.mp hq with hq | hq
        · exact hdisj p (by simp [hp]) q hq
        · simp only [List.mem_singleton] at hq
          subst hq
          intro hcontra
          exact hnodup.1 (List.mem_map.mpr ⟨p, hp, hcontra.symm⟩))]
    simp

/-- Auxiliary: the feature-set merge fold behaves the same way. -/
theorem foldl_featureSet_append (l : FeatureSet) :
    ∀ acc : FeatureSet,
      (l.map Prod.fst).Nodup →
      (∀ p ∈ l, ∀ q ∈ acc, q.1 ≠ p.1) →
      l.foldl
        (fun m kv =>
          match m.find? (fun p => p.1 = kv.1) with
          | some existing => setAssoc m kv.1 (mergeFeatureOptions existing.2 kv.2)
          | none => m ++ [(kv.1, kv.2)]) acc = acc ++ l := by
  induction l with
  | nil => intro acc _ _; simp
  | cons hd tl ih =>
    intro acc hnodup hdisj
    rw [List.map_cons, List.nodup_cons] at hnodup
    have hfind : acc.find? (fun p => p.1 = hd.1) = none := by
      apply List.find?_eq_none.mpr
      intro q hq
      simp only [decide_eq_true_eq]
      exact hdisj hd (by simp) q hq
    simp only [List.foldl_cons, hfind]
    rw [ih (acc ++ [(hd.1, hd.2)]) hnodup.2
      (by
        intro p hp q hq
        rcases List.mem_append.mp hq with hq | hq
        · exact hdisj p (by simp [hp]) q hq
        · simp only [List.mem_singleton] at hq
          subst hq
          intro hcontra
          exact hnodup.1 (List.mem_map.mpr ⟨p, hp, hcontra.symm⟩))]
    simp

theorem mergeStringMap_empty_right (m : List (String × String)) :
    mergeStringMap m [] = m := by
  cases m with
  | nil => rfl
  | cons hd tl => rfl

theorem mergeStringMap_empty_left (m : List (String × String))
    (h : keysNodup m) : mergeStringMap [] m = m := by
  cases m with
  | nil => rfl
  | cons hd tl =>
    unfold mergeStringMap
    simp only [List.isEmpty_nil, List.isEmpty_cons, Bool.true_and,
      Bool.false_eq_true, if_false]
    simpa using foldl_setAssoc_append (hd :: tl) [] h (by simp)

theorem mergeFeatureSet_empty_right (m : FeatureSet) (h : keysNodup m) :
    mergeFeatureSet m [] = m := by
  cases m with
  | nil => rfl
  | cons hd tl =>
    unfold mergeFeatureSet
    simp only [List.isEmpty_nil, List.isEmpty_cons, Bool.and_true,
      Bool.false_eq_true, if_false, List.foldl_nil]
    simpa using foldl_setAssoc_append (hd :: tl) [] h (by simp)

theorem mergeFeatureSet_empty_left (m : FeatureSet) (h : keysNodup m) :
    mergeFeatureSet [] m = m := by
  cases m with
  | nil => rfl
  | cons hd tl =>
    unfold mergeFeatureSet
    simp only [List.isEmpty_nil, List.isEmpty_cons, Bool.true_and,
      Bool.false_eq_true, if_false, List.foldl_nil]
    simpa using foldl_featureSet_append (hd :: tl) [] h (by simp)

theorem mergeBuild_none_right (b : Option DevcontainerBuild) :
    mergeBuild b none = b := by
  cases b <;> rfl

theorem mergeBuild_none_left (o : Option DevcontainerBuild) :
    mergeBuild none o = o := by
  cases o <;> rfl

theorem mergeInit_none_right (x : Option Bool) : mergeInit x none = x := by
  cases x with
  | none => rfl
  | some v => show some (v || false) = some v; simp

theorem mergeInit_none_left (x : Option Bool) : mergeInit none x = x := by
  cases x with
  | none => rfl
  | some v => show some (false || v) = some v; simp

theorem if_ne_blank_self (s : String) : (if s ≠ "" then s else "") = s := by
  by_cases h : s = "" <;> simp [h]

theorem if_isSome_self {α : Type} (x : Option α) :
    (if x.isSome then x else none) = x := by
  cases x <;> simp

/-- C8: for every well-formed config `a` (Go maps have distinct keys),
merging with the empty config on either side returns a config equal to `a`;
in the value semantics of this embedding `MergeConfig` is a pure function of
its arguments, so the inputs are left unmodified by construction. -/
theorem mergeConfig_identities (a : DevcontainerConfig) (h : ConfigWF a) :
    MergeConfig (some a) (some emptyConfig) = a ∧
    MergeConfig (some emptyConfig) (some a) = a := by
  obtain ⟨hce, hre, hfs⟩ := h
  constructor
  · show MergeConfig (some a) (some emptyConfig) = a
    simp only [MergeConfig, emptyConfig, mergeBuild_none_right,
      mergeInit_none_right, mergeStringMap_empty_right,
      mergeFeatureSet_empty_right _ hfs, List.append_nil, ne_eq,
      not_true_eq_false, if_false, if_isSome_self, Option.isSome_none,
      Bool.false_eq_true, Bool.or_false]
  · show MergeConfig (some emptyConfig) (some a) = a
    simp only [MergeConfig, emptyConfig, mergeBuild_none_left,
      mergeInit_none_left, mergeStringMap_empty_left _ hce,
      mergeStringMap_empty_left _ hre, mergeFeatureSet_empty_left _ hfs,
      List.nil_append, if_ne_blank_self, Bool.false_or, if_isSome_self]

/-- C8 witness: the identities applied to a concrete well-formed config. -/
theorem mergeConfig_identities_witness :
    MergeConfig (some cfgSample) (some emptyConfig) = cfgSample :=
  (mergeConfig_identities cfgSample (by decide)).1

theorem mergeInit_or_spec (x y : Option Bool) :
    mergeInit x y =
      (if x.isNone && y.isNone then none
       else some (x.getD false || y.getD false)) := by
  cases x <;> cases y <;> rfl

/-- C7 counterexample: merging an overlay with `init = false` onto a base
with `init = true` yields `init = true` (the logical OR), not the overlay's
value `false` as the claim states. -/
theorem mergeConfig_init_counterexample :
    (MergeConfig (some cfgInitTrue) (some cfgInitFalse)).init = some true ∧
    (MergeConfig (some cfgInitTrue) (some cfgInitFalse)).init ≠ some false := by
  constructor
  · rfl
  · decide

/-- C7 (amended): in `MergeConfig` the nullable boolean `overrideCommand` is
merged by letting the overlay's non-nil value win, while the nullable
boolean `init` is merged by the logical OR of the non-nil values (nil only
when both are nil); so an overlay with `init = false` over a base with
`init = true` yields `init = true`. -/
theorem mergeConfig_nullable_boolean_merge :
    (∀ b o : DevcontainerConfig,
      (MergeConfig (some b) (some o)).overrideCommand
        = (if o.overrideCommand.isSome then o.overrideCommand
           else b.overrideCommand) ∧
      (MergeConfig (some b) (some o)).init
        = (if b.init.isNone && o.init.isNone then none
           else some (b.init.getD false || o.init.getD false))) ∧
    (MergeConfig (some cfgInitTrue) (some cfgInitFalse)).init = some true := by
  refine ⟨fun b o => ⟨rfl, ?_⟩, rfl⟩
  show mergeInit b.init o.init = _
  exact mergeInit_or_spec b.init o.init

/-- C6 counterexample: a non-compose config with both `image` and `build`
set does not contain exactly one of the three source kinds, yet
`validateConfig` accepts it (the image/build conflict is only rejected later
by `ensureImage`). -/
theorem validateConfig_counterexample :
    validateConfig cfgBothImageAndBuild = .ok () ∧
    exactlyOneSource cfgBothImageAndBuild = false := by
  constructor
  · rfl
  · rfl

/-- C6 (amended): `validateConfig` returns an error exactly when the config
is in compose mode with a missing compose file or service or with image or
build also set, or is in non-compose mode with neither image nor build; the
non-compose case with both image and build set passes `validateConfig` and
is rejected by the separate `ensureImage` guard. -/
theorem validateConfig_error_characterization :
    (∀ c : DevcontainerConfig,
      (validateConfig c).isOk = false ↔
        ((isComposeConfig c = true ∧
            (c.dockerComposeFile.isEmpty = true ∨ c.service = "" ∨
              c.image ≠ "" ∨ c.build.isSome = true)) ∨
          (isComposeConfig c = false ∧ c.image = "" ∧ c.build = none))) ∧
    (∀ c : DevcontainerConfig, c.image ≠ "" → c.build.isSome = true →
      ensureImageChecks c
        = .error "both image and build are set in devcontainer.json") := by
  constructor
  · intro c
    have herr : ∀ e : String, (Except.error e : Except String Unit).isOk = false :=
      fun _ => rfl
    have hok : (Except.ok () : Except String Unit).isOk = true := rfl
    unfold validateConfig
    by_cases hcompose : isComposeConfig c = true
    · rw [if_pos hcompose]
      by_cases hfile : c.dockerComposeFile.isEmpty = true
      · rw [if_pos hfile]
        simp [herr, hcompose, hfile]
      · rw [if_neg hfile]
        by_cases hsvc : c.service = ""
        · rw [if_pos hsvc]
          simp [herr, hcompose, hsvc]
        · rw [if_neg hsvc]
          by_cases hib : c.image ≠ "" ∨ c.build.isSome = true
          · rw [if_pos hib]
            simp only [herr, hcompose, true_and, true_iff]
            left
            rcases hib with hib | hib
            · exact Or.inr (Or.inr (Or.inl hib))
            · exact Or.inr (Or.inr (Or.inr hib))
          · rw [if_neg hib]
            push_neg at hib
            rw [hok]
            simp only [Bool.true_eq_false, false_iff]
            intro hbad
            rcases hbad with ⟨_, hbad⟩ | ⟨hbadcomp, _⟩
            · rcases hbad with h | h | h | h
              · exact hfile h
              · exact hsvc h
              · exact h hib.1
              · exact hib.2 h
            · exact absurd hcompose (by simp [hbadcomp])
    · rw [if_neg hcompose]
      by_cases hniether : c.image = "" ∧ c.build = none
      · rw [if_pos hniether]
        simp only [herr, true_iff]
        right
        exact ⟨Bool.not_eq_true _ |>.mp hcompose, hniether.1, hniether.2⟩
      · rw [if_neg hniether]
        rw [hok]
        simp only [Bool.true_eq_false, false_iff]
        intro hbad
        rcases hbad with ⟨hbadcomp, _⟩ | ⟨_, himg, hbld⟩
        · exact hcompose hbadcomp
        · exact hniether ⟨himg, hbld⟩
  · intro c himg hb
    unfold ensureImageChecks
    rw [if_pos ⟨himg, hb⟩]

/-- C6 witness: the `ensureImage` guard fires on the concrete config with
both image and build set. -/
theorem validateConfig_error_characterization_witness :
    ensureImageChecks cfgBothImageAndBuild
      = .error "both image and build are set in devcontainer.json" :=
  validateConfig_error_characterization.2 cfgBothImageAndBuild
    (by decide) (by decide)

/-- C9: for a bare variable token absent from both the variables map and the
container env map, `resolveVariable` returns the unsupported-variable error
both when the process environment variable is unset and when it is set to
the empty string (the two are indistinguishable through `os.Getenv`), and
the environment fallback never yields the empty string. -/
theorem resolveVariable_empty_env_unsupported
    (env : String → Option String) (token : String)
    (vars cenv : List (String × String))
    (hlocal : strStartsWith token "localEnv:" = false)
    (hcontainer : strStartsWith token "containerEnv:" = false)
    (hvars : lookupStr vars token = none)
    (hcenv : lookupStr cenv token = none) :
    ((env token = none ∨ env token = some "") →
      resolveVariable env token vars cenv
        = .error ("unsupported variable: " ++ token)) ∧
    (∀ v, resolveVariable env token vars cenv = .ok v → v ≠ "") := by
  unfold resolveVariable
  rw [hlocal, hcontainer]
  simp only [Bool.false_eq_true, if_false, hvars, hcenv]
  constructor
  · intro hempty
    have hget : getenv env token = "" := by
      unfold getenv
      rcases hempty with h | h <;> rw [h] <;> rfl
    rw [hget]
    simp
  · intro v hok
    by_cases hne : getenv env token ≠ ""
    · rw [if_pos hne] at hok
      cases hok
      exact hne
    · rw [if_neg hne] at hok
      cases hok

/-- C9 witness: a variable set to the empty string hits the
unsupported-variable error. -/
theorem resolveVariable_empty_env_unsupported_witness :
    resolveVariable (fun _ => some "") "FOO" [] []
      = .error "unsupported variable: FOO" :=
  (resolveVariable_empty_env_unsupported (fun _ => some "") "FOO" [] []
    (by decide) (by decide) rfl rfl).1 (Or.inr rfl)

/-- C10: a version-string feature entry decodes to the option map
`{version: s}`; resolving that map against a feature that declares no
options errors with "feature does not declare any options"; resolving it
against declared options that lack `version` errors with the
unsupported-option message; and a `version` option declared with type
`boolean` also fails. -/
theorem featureSet_version_shorthand
    (id s : String) (hid : trimSpace id ≠ "")
    (ds : List (String × FeatureOptionDefinition)) (hds : ds ≠ [])
    (hnover : ∀ d ∈ ds, d.1 ≠ "version") (dflt : FeatureOptionValue) :
    unmarshalFeatureSet [(id, .str s)]
      = .ok [(id, [("version", .str s)])] ∧
    resolveFeatureOptions [] [("version", .str s)]
      = .error "feature does not declare any options" ∧
    resolveFeatureOptions ds [("version", .str s)]
      = .error "unsupported feature option: version" ∧
    (resolveFeatureOptions [("version", ⟨"boolean", dflt⟩)]
        [("version", .str s)]).isOk = false := by
  refine ⟨?_, ?_, ?_, ?_⟩
  · unfold unmarshalFeatureSet
    rw [if_neg hid]
    rfl
  · rfl
  · unfold resolveFeatureOptions
    rw [if_neg (by
      intro hcontra
      exact hds (List.length_eq_zero.mp hcontra.2))]
    have hfind : ([("version", FeatureOptionValue.str s)]).find?
        (fun kv => !(ds.any (fun dp => dp.1 = kv.1)) && !ds.isEmpty)
        = some ("version", FeatureOptionValue.str s) := by
      rw [List.find?_cons]
      have hany : ds.any (fun dp => dp.1 = "version") = false := by
        rw [List.any_eq_false]
        intro d hd
        simpa using hnover d hd
      have hempty : ds.isEmpty = false := by
        cases ds with
        | nil => exact absurd rfl hds
        | cons _ _ => rfl
      simp [hany, hempty]
    rw [hfind]
    rfl
  · cases dflt with
    | str v => rfl
    | bool b => rfl
    | missing => rfl

/-- C10 witness: the shorthand decodes and both failure modes fire on
concrete inputs. -/
theorem featureSet_version_shorthand_witness :
    unmarshalFeatureSet [("ghcr.io/devcontainers/features/git", .str "1.0")]
      = .ok [("ghcr.io/devcontainers/features/git",
              [("version", .str "1.0")])] ∧
    resolveFeatureOptions [("other", ⟨"string", .str "x"⟩)]
        [("version", .str "1.0")]
      = .error "unsupported feature option: version" :=
  have h := featureSet_version_shorthand "ghcr.io/devcontainers/features/git"
    "1.0" (by decide) [("other", ⟨"string", .str "x"⟩)] (by decide)
    (by decide) .missing
  ⟨h.1, h.2.2.1⟩

theorem sInsert_perm {α : Type} (le : α → α → Bool) (a : α) :
    ∀ l : List α, (sInsert le a l).Perm (a :: l)
  | [] => List.Perm.refl _
  | b :: l => by
    unfold sInsert
    by_cases h : le a b = true
    · rw [if_pos h]
    · rw [if_neg h]
      exact ((sInsert_perm le a l).cons b).trans (List.Perm.swap a b l)

theorem stableSort_perm {α : Type} (le : α → α → Bool) :
    ∀ l : List α, (stableSort le l).Perm l
  | [] => List.Perm.refl _
  | x :: xs =>
    (sInsert_perm le x (stableSort le xs)).trans
      ((stableSort_perm le xs).cons x)

theorem hashPayload_canonical (m : List (String × String)) :
    hashPayload m = (canonicalOptions m).flatMap
      (fun p => utf8Bytes p.1 ++ [0] ++ utf8Bytes p.2 ++ [0]) := by
  unfold hashPayload canonicalOptions
  induction sortedKeys m with
  | nil => rfl
  | cons k ks ih => simp only [List.flatMap_cons, List.map_cons, ih]

theorem canonicalOptions_length (m : List (String × String)) :
    (canonicalOptions m).length = m.length := by
  unfold canonicalOptions sortedKeys sortStrings
  rw [List.length_map, (stableSort_perm _ _).length_eq, List.length_map]

/-- C4: `featureEqualityKey` is the source tag, the digest, and the options
hash joined by colons; the options hash is `"none"` for an empty map and
otherwise the lowercase-hex SHA-256 of the `key\0value\0` stream over the
entries sorted by key; and the key depends only on the source, the digest,
and the sorted key/value view of the options. -/
theorem featureEqualityKey_spec (source : FeatureSource) (digest : String)
    (options : List (String × String)) :
    featureEqualityKey source digest options
      = sourceTag source ++ ":" ++ digest ++ ":" ++ hashFeatureOptions options
    ∧ (options = [] → hashFeatureOptions options = "none")
    ∧ (options ≠ [] →
        hashFeatureOptions options = hexOfBytes (sha256 (hashPayload options)))
    ∧ (∀ options' : List (String × String),
        canonicalOptions options = canonicalOptions options' →
        featureEqualityKey source digest options
          = featureEqualityKey source digest options') := by
  refine ⟨?_, ?_, ?_, ?_⟩
  · cases source <;> rfl
  · intro h; subst h; rfl
  · intro h
    unfold hashFeatureOptions
    rw [if_neg (by cases options with
      | nil => exact absurd rfl h
      | cons _ _ => simp)]
  · intro options' hcan
    have hpay : hashPayload options = hashPayload options' := by
      rw [hashPayload_canonical, hashPayload_canonical, hcan]
    have hempty : options.isEmpty = options'.isEmpty := by
      have hlen := congrArg List.length hcan
      rw [canonicalOptions_length, canonicalOptions_length] at hlen
      cases options <;> cases options' <;> simp_all
    have hhash : hashFeatureOptions options = hashFeatureOptions options' := by
      unfold hashFeatureOptions
      rw [hempty, hpay]
    cases source <;> simp [featureEqualityKey, hhash]

/-- C4 witness: the empty map hashes to "none", and two option maps with the
same sorted contents get the same key. -/
theorem featureEqualityKey_spec_witness :
    hashFeatureOptions [] = "none" ∧
    featureEqualityKey .oci "sha256:d" [("b", "2"), ("a", "1")]
      = featureEqualityKey .oci "sha256:d" [("a", "1"), ("b", "2")] :=
  ⟨(featureEqualityKey_spec .oci "sha256:d" []).2.1 rfl,
   (featureEqualityKey_spec .oci "sha256:d" [("b", "2"), ("a", "1")]).2.2.2
     [("a", "1"), ("b", "2")] (by decide)⟩

theorem runFeatureLifecycleCommand_eq (b : LifecycleBehavior) (hook : String)
    (f : ResolvedFeature) :
    runFeatureLifecycleCommand b hook f
      = runLifecycleCommands b hook (featureLifecycleCommands hook f) := by
  unfold runFeatureLifecycleCommand
  by_cases h : lcIsZero (featureLifecycleCommands hook f) = true
  · rw [if_pos h]
    unfold runLifecycleCommands
    rw [if_pos h]
  · rw [if_neg h]

theorem runPlan_cons (b : LifecycleBehavior)
    (p : String × Option LifecycleCommands)
    (rest : List (String × Option LifecycleCommands)) :
    runPlan b (p :: rest)
      = (match (runLifecycleCommands b p.1 p.2).2 with
         | some e => ((runLifecycleCommands b p.1 p.2).1, some e)
         | none => ((runLifecycleCommands b p.1 p.2).1 ++ (runPlan b rest).1,
                    (runPlan b rest).2)) := rfl

theorem runPlan_append_err (b : LifecycleBehavior) (e : String) :
    ∀ xs ys, (runPlan b xs).2 = some e →
      runPlan b (xs ++ ys) = runPlan b xs := by
  intro xs
  induction xs with
  | nil => intro ys h; exact absurd h (by simp [runPlan])
  | cons p tl ih =>
    intro ys h
    rw [runPlan_cons] at h
    rw [List.cons_append, runPlan_cons, runPlan_cons]
    cases hr : (runLifecycleCommands b p.1 p.2).2 with
    | some e2 => simp only [hr]
    | none =>
      simp only [hr] at h ⊢
      rw [ih ys h]

theorem runPlan_append_ok (b : LifecycleBehavior) :
    ∀ xs ys, (runPlan b xs).2 = none →
      runPlan b (xs ++ ys)
        = ((runPlan b xs).1 ++ (runPlan b ys).1, (runPlan b ys).2) := by
  intro xs
  induction xs with
  | nil => intro ys _; simp [runPlan]
  | cons p tl ih =>
    intro ys h
    rw [runPlan_cons] at h
    rw [List.cons_append, runPlan_cons, runPlan_cons]
    cases hr : (runLifecycleCommands b p.1 p.2).2 with
    | some e2 =>
      simp only [hr] at h
      exact Option.noConfusion h
    | none =>
      simp only [hr] at h ⊢
      rw [ih ys h]
      simp [List.append_assoc]

theorem runFeaturesPhase_eq_runPlan (b : LifecycleBehavior) (hook : String) :
    ∀ fs : List ResolvedFeature,
      runFeaturesPhase b hook fs
        = runPlan b (fs.map (fun f => (hook, featureLifecycleCommands hook f))) := by
  intro fs
  induction fs with
  | nil => rfl
  | cons f fs ih =>
    show runFeaturesPhase b hook (f :: fs) = _
    rw [List.map_cons, runPlan_cons]
    unfold runFeaturesPhase
    rw [runFeatureLifecycleCommand_eq]
    cases hr : (runLifecycleCommands b hook (featureLifecycleCommands hook f)).2 with
    | some e => simp only [hr]
    | none => simp only [hr, ih]

theorem userHookBlock_eq (b : LifecycleBehavior)
    (userHooks : List (String × LifecycleCommands)) (hook : String) :
    (match lookupHook userHooks hook with
      | some cmds => runLifecycleCommands b hook (some cmds)
      | none => (([] : List LifecycleCall), (none : Option String)))
      = runLifecycleCommands b hook (lookupHook userHooks hook) := by
  cases h : lookupHook userHooks hook with
  | none => rfl
  | some cmds => rfl

theorem runHooksLoop_eq_runPlan (b : LifecycleBehavior)
    (fs : List ResolvedFeature)
    (userHooks : List (String × LifecycleCommands)) :
    ∀ hooks : List String,
      runHooksLoop b fs userHooks hooks
        = runPlan b (hooks.flatMap
            (fun hook =>
              fs.map (fun f => (hook, featureLifecycleCommands hook f)) ++
                [(hook, lookupHook userHooks hook)])) := by
  intro hooks
  induction hooks with
  | nil => rfl
  | cons hook rest ih =>
    rw [List.flatMap_cons, List.append_assoc]
    unfold runHooksLoop
    rw [runFeaturesPhase_eq_runPlan, userHookBlock_eq]
    cases hrf : (runPlan b
        (fs.map (fun f => (hook, featureLifecycleCommands hook f)))).2 with
    | some e =>
      simp only [hrf]
      rw [runPlan_append_err b e _ _ hrf]
      rw [Prod.ext_iff]
      exact ⟨rfl, hrf.symm⟩
    | none =>
      simp only [hrf]
      rw [runPlan_append_ok b _ _ hrf]
      cases hru : (runLifecycleCommands b hook
          (lookupHook userHooks hook)).2 with
      | some e =>
        simp only [hru]
        have hone : (runPlan b [(hook, lookupHook userHooks hook)]).2 = some e := by
          rw [runPlan_cons]
          simp only [hru]
        rw [runPlan_append_err b e _ _ hone, runPlan_cons]
        simp only [hru]
      | none =>
        simp only [hru, ih]
        have hone : (runPlan b [(hook, lookupHook userHooks hook)]).2 = none := by
          rw [runPlan_cons]
          simp only [hru]
          rfl
        rw [runPlan_append_ok b _ _ hone, runPlan_cons]
        simp only [hru]
        simp [runPlan, List.append_assoc]

/-- C5: the embedded lifecycle engine equals sequential stop-on-error
execution of the planned blocks, where the plan lists the phases in the
fixed canonical order (onCreateCommand, updateContentCommand,
postCreateCommand, postStartCommand, postAttachCommand) and, inside each
phase, every resolved feature's hook in installation order followed by the
user's hook; the first failing block therefore prevents every later block of
the same phase and of every later phase from running. -/
theorem runLifecycleWithFeatures_refines_plan (b : LifecycleBehavior)
    (features : Option ResolvedFeatures)
    (userHooks : List (String × LifecycleCommands)) :
    runLifecycleWithFeatures b features userHooks
      = runPlan b (lifecyclePlan
          (match features with
           | none => []
           | some fs => fs.order) userHooks) := by
  unfold runLifecycleWithFeatures lifecyclePlan
  cases features with
  | none =>
    simp only
    cases userHooks with
    | nil => rfl
    | cons h t =>
      simp only [List.isEmpty_cons, List.isEmpty_nil, Bool.false_and,
        Bool.false_eq_true, if_false]
      exact runHooksLoop_eq_runPlan b [] (h :: t) lifecycleOrder
  | some fs =>
    simp only
    cases hord : fs.order with
    | nil =>
      cases userHooks with
      | nil => rfl
      | cons h t =>
        simp only [List.isEmpty_cons, List.isEmpty_nil, Bool.false_and,
          Bool.false_eq_true, if_false]
        exact runHooksLoop_eq_runPlan b [] (h :: t) lifecycleOrder
    | cons f rest =>
      simp only [List.isEmpty_cons, Bool.and_false, Bool.false_eq_true,
        if_false]
      exact runHooksLoop_eq_runPlan b (f :: rest) userHooks lifecycleOrder

theorem splitSlash_slash (ys : List Char) :
    splitSlash ('/' :: ys) = "" :: splitSlash ys := rfl

theorem splitSlash_cons_ne (c : Char) (h : c ≠ '/') (rest : List Char) :
    splitSlash (c :: rest)
      = (match splitSlash rest with
         | [] => [String.mk [c]]
         | s :: ss => String.mk (c :: s.data) :: ss) := by
  conv_lhs => unfold splitSlash
  rw [if_neg h]

theorem splitSlash_ne_nil : ∀ l : List Char, splitSlash l ≠ []
  | [] => by simp [splitSlash]
  | c :: rest => by
    by_cases h : c = '/'
    · subst h
      rw [splitSlash_slash]
      simp
    · rw [splitSlash_cons_ne c h]
      cases hs : splitSlash rest <;> simp

theorem splitSlash_append : ∀ xs ys : List Char,
    splitSlash (xs ++ '/' :: ys) = splitSlash xs ++ splitSlash ys := by
  intro xs ys
  induction xs with
  | nil =>
    rw [List.nil_append, splitSlash_slash]
    rfl
  | cons c xs ih =>
    rw [List.cons_append]
    by_cases h : c = '/'
    · subst h
      rw [splitSlash_slash, splitSlash_slash, ih]
      rfl
    · rw [splitSlash_cons_ne c h, splitSlash_cons_ne c h, ih]
      cases hs : splitSlash xs with
      | nil => exact absurd hs (splitSlash_ne_nil xs)
      | cons s ss => simp

theorem splitSlash_noslash : ∀ l : List Char, (∀ c ∈ l, c ≠ '/') →
    splitSlash l = [String.mk l]
  | [], _ => rfl
  | c :: rest, h => by
    rw [splitSlash_cons_ne c (h c (by simp)),
      splitSlash_noslash rest (fun x hx => h x (by simp [hx]))]

theorem splitSlash_joinSlash : ∀ rp : List String, rp ≠ [] →
    (∀ s ∈ rp, ∀ c ∈ s.data, c ≠ '/') →
    splitSlash (joinSlash rp) = rp
  | [], h, _ => absurd rfl h
  | [s], _, hns => by
    show splitSlash s.data = [s]
    rw [splitSlash_noslash s.data (hns s (by simp))]
  | s :: s2 :: rest, _, hns => by
    show splitSlash (s.data ++ '/' :: joinSlash (s2 :: rest)) = _
    rw [splitSlash_append, splitSlash_noslash s.data (hns s (by simp)),
      splitSlash_joinSlash (s2 :: rest) (by simp)
        (fun x hx => hns x (by simp at hx; rcases hx with h | h <;> simp [h]))]
    rfl

theorem joinSlash_ne_nil : ∀ rp : List String, rp ≠ [] →
    (∀ s ∈ rp, s ≠ "") → joinSlash rp ≠ []
  | [], h, _ => absurd rfl h
  | [s], _, hne => by
    show s.data ≠ []
    intro hcon
    exact hne s (by simp) (by
      have hs : s = String.mk s.data := rfl
      rw [hs, hcon])
  | s :: s2 :: rest, _, _ => by
    show s.data ++ '/' :: joinSlash (s2 :: rest) ≠ []
    simp

theorem joinSlash_append_ne : ∀ a b : List String, a ≠ [] → b ≠ [] →
    joinSlash (a ++ b) = joinSlash a ++ '/' :: joinSlash b
  | [], _, ha, _ => absurd rfl ha
  | [s], b, _, hb => by
    cases b with
    | nil => exact absurd rfl hb
    | cons b1 bs => rfl
  | s :: s2 :: rest, b, _, hb => by
    have h1 : joinSlash ((s :: s2 :: rest) ++ b)
        = s.data ++ '/' :: joinSlash ((s2 :: rest) ++ b) := rfl
    have h2 : joinSlash (s :: s2 :: rest)
        = s.data ++ '/' :: joinSlash (s2 :: rest) := rfl
    rw [h1, h2, joinSlash_append_ne (s2 :: rest) b (by simp) hb,
      List.append_assoc, List.cons_append]

theorem cleanRun_cons (rooted : Bool) (acc : List String) (seg : String)
    (rest : List String) :
    cleanRun rooted acc (seg :: rest)
      = (if seg = "" ∨ seg = "." then cleanRun rooted acc rest
         else if seg = ".." then
           match acc with
           | [] => cleanRun rooted (if rooted then [] else [".."]) rest
           | top :: accRest =>
             if top = ".." then cleanRun rooted (seg :: acc) rest
             else cleanRun rooted accRest rest
         else cleanRun rooted (seg :: acc) rest) := by
  rw [cleanRun.eq_def]

theorem cleanRun_goodPass : ∀ (rp : List String) (segs acc : List String),
    (∀ s ∈ rp, GoodSeg s) →
    cleanRun true acc (rp ++ segs) = cleanRun true (rp.reverse ++ acc) segs
  | [], segs, acc, _ => by simp
  | s :: rp, segs, acc, hgood => by
    obtain ⟨h1, h2, h3, _⟩ := hgood s (by simp)
    rw [List.cons_append, cleanRun_cons, if_neg (by simp [h1, h2]), if_neg h3,
      cleanRun_goodPass rp segs (s :: acc) (fun x hx => hgood x (by simp [hx]))]
    simp

theorem cleanRun_stack : ∀ (cs acc : List String),
    (∀ s ∈ acc, s ≠ "..") →
    ∃ i extra, i ≤ acc.length ∧
      cleanRun true acc cs = (acc.drop i).reverse ++ extra ∧
      (∀ s ∈ extra, s ≠ "" ∧ s ≠ "." ∧ s ≠ ".." ∧ s ∈ cs)
  | [], acc, _ => ⟨0, [], by simp, by simp [cleanRun], by simp⟩
  | seg :: cs, acc, hacc => by
    by_cases hskip : seg = "" ∨ seg = "."
    · obtain ⟨i, extra, hi, hrun, hextra⟩ := cleanRun_stack cs acc hacc
      refine ⟨i, extra, hi, ?_, ?_⟩
      · rw [cleanRun_cons, if_pos hskip]
        exact hrun
      · intro s hs
        obtain ⟨a1, a2, a3, a4⟩ := hextra s hs
        exact ⟨a1, a2, a3, by simp [a4]⟩
    · by_cases hdd : seg = ".."
      · cases acc with
        | nil =>
          obtain ⟨i, extra, hi, hrun, hextra⟩ := cleanRun_stack cs [] (by simp)
          refine ⟨0, extra, by simp, ?_, ?_⟩
          · rw [cleanRun_cons, if_neg hskip, if_pos hdd]
            simpa using hrun
          · intro s hs
            obtain ⟨a1, a2, a3, a4⟩ := hextra s hs
            exact ⟨a1, a2, a3, by simp [a4]⟩
        | cons top accRest =>
          have htop : top ≠ ".." := hacc top (by simp)
          obtain ⟨i, extra, hi, hrun, hextra⟩ :=
            cleanRun_stack cs accRest (fun s hs => hacc s (by simp [hs]))
          refine ⟨i + 1, extra, by simpa using hi, ?_, ?_⟩
          · rw [cleanRun_cons, if_neg hskip, if_pos hdd]
            simpa [htop] using hrun
          · intro s hs
            obtain ⟨a1, a2, a3, a4⟩ := hextra s hs
            exact ⟨a1, a2, a3, by simp [a4]⟩
      · obtain ⟨i, extra, hi, hrun, hextra⟩ :=
          cleanRun_stack cs (seg :: acc)
            (by
              intro s hs
              rcases List.mem_cons.mp hs with h | h
              · rw [h]; exact hdd
              · exact hacc s h)
        have hstep : cleanRun true acc (seg :: cs)
            = cleanRun true (seg :: acc) cs := by
          rw [cleanRun_cons, if_neg hskip, if_neg hdd]
        cases i with
        | zero =>
          refine ⟨0, seg :: extra, by simp, ?_, ?_⟩
          · rw [hstep, hrun]
            simp
          · intro s hs
            rcases List.mem_cons.mp hs with h | h
            · subst h
              exact ⟨fun hc => hskip (Or.inl hc), fun hc => hskip (Or.inr hc),
                hdd, by simp⟩
            · obtain ⟨a1, a2, a3, a4⟩ := hextra s h
              exact ⟨a1, a2, a3, by simp [a4]⟩
        | succ j =>
          refine ⟨j, extra, by simpa using hi, ?_, ?_⟩
          · rw [hstep, hrun]
            simp
          · intro s hs
            obtain ⟨a1, a2, a3, a4⟩ := hextra s hs
            exact ⟨a1, a2, a3, by simp [a4]⟩

theorem string_mk_cons_ne_empty (c : Char) (l : List Char) :
    String.mk (c :: l) ≠ "" := by
  intro h
  have hd := congrArg String.data h
  simp at hd


theorem cleanRun_cons_skip (rooted : Bool) (acc : List String) (seg : String)
    (rest : List String) (h : seg = "" ∨ seg = ".") :
    cleanRun rooted acc (seg :: rest) = cleanRun rooted acc rest := by
  rw [cleanRun_cons, if_pos h]

theorem cleanRun_cons_push (rooted : Bool) (acc : List String) (seg : String)
    (rest : List String) (h1 : ¬(seg = "" ∨ seg = ".")) (h2 : seg ≠ "..") :
    cleanRun rooted acc (seg :: rest) = cleanRun rooted (seg :: acc) rest := by
  rw [cleanRun_cons, if_neg h1, if_neg h2]

theorem cleanRun_cons_pop_nil (rooted : Bool) (seg : String)
    (rest : List String) (h1 : ¬(seg = "" ∨ seg = ".")) (h2 : seg = "..") :
    cleanRun rooted [] (seg :: rest)
      = cleanRun rooted (if rooted then [] else [".."]) rest := by
  rw [cleanRun_cons, if_neg h1, if_pos h2]

theorem cleanRun_cons_pop (rooted : Bool) (top : String)
    (accRest : List String) (seg : String) (rest : List String)
    (h1 : ¬(seg = "" ∨ seg = ".")) (h2 : seg = "..") (h3 : top ≠ "..") :
    cleanRun rooted (top :: accRest) (seg :: rest)
      = cleanRun rooted accRest rest := by
  rw [cleanRun_cons, if_neg h1, if_pos h2]
  simp [h3]

theorem cleanRun_cons_pop_stay (rooted : Bool) (top : String)
    (accRest : List String) (seg : String) (rest : List String)
    (h1 : ¬(seg = "" ∨ seg = ".")) (h2 : seg = "..") (h3 : top = "..") :
    cleanRun rooted (top :: accRest) (seg :: rest)
      = cleanRun rooted (seg :: top :: accRest) rest := by
  rw [cleanRun_cons, if_neg h1, if_pos h2]
  simp [h3]

theorem cleanRun_mem_ne : ∀ (rooted : Bool) (cs acc : List String),
    (∀ s ∈ acc, s ≠ "" ∧ s ≠ ".") →
    ∀ s ∈ cleanRun rooted acc cs, s ≠ "" ∧ s ≠ "."
  | _, [], acc, hacc => by
    intro s hs
    rw [cleanRun] at hs
    exact hacc s (List.mem_reverse.mp hs)
  | rooted, seg :: cs, acc, hacc => by
    intro s hs
    by_cases hskip : seg = "" ∨ seg = "."
    · rw [cleanRun_cons_skip _ _ _ _ hskip] at hs
      exact cleanRun_mem_ne rooted cs acc hacc s hs
    · by_cases hdd : seg = ".."
      · cases acc with
        | nil =>
          rw [cleanRun_cons_pop_nil _ _ _ hskip hdd] at hs
          cases rooted with
          | true =>
            simp only [if_true] at hs
            exact cleanRun_mem_ne true cs [] (by simp) s hs
          | false =>
            simp only [Bool.false_eq_true, if_false] at hs
            exact cleanRun_mem_ne false cs [".."] (by simp) s hs
        | cons top accRest =>
          by_cases htop : top = ".."
          · rw [cleanRun_cons_pop_stay _ _ _ _ _ hskip hdd htop] at hs
            exact cleanRun_mem_ne rooted cs (seg :: top :: accRest)
              (by
                intro x hx
                rcases List.mem_cons.mp hx with h | h
                · rw [h, hdd]; simp
                · exact hacc x h) s hs
          · rw [cleanRun_cons_pop _ _ _ _ _ hskip hdd htop] at hs
            exact cleanRun_mem_ne rooted cs accRest
              (fun x hx => hacc x (by simp [hx])) s hs
      · rw [cleanRun_cons_push _ _ _ _ hskip hdd] at hs
        exact cleanRun_mem_ne rooted cs (seg :: acc)
          (by
            intro x hx
            rcases List.mem_cons.mp hx with h | h
            · rw [h]
              exact ⟨fun hc => hskip (Or.inl hc), fun hc => hskip (Or.inr hc)⟩
            · exact hacc x h) s hs

theorem clean_ne_empty (p : String) : clean p ≠ "" := by
  unfold clean
  by_cases hp : p = ""
  · rw [if_pos hp]
    intro h
    exact absurd (congrArg String.data h) (by simp)
  · rw [if_neg hp]
    simp only
    by_cases hr : (match p.data with
        | '/' :: _ => true
        | _ => false) = true
    · rw [if_pos hr]
      exact string_mk_cons_ne_empty _ _
    · rw [if_neg hr]
      by_cases ho : cleanSegs (match p.data with
          | '/' :: _ => true
          | _ => false) (splitSlash p.data) = []
      · rw [if_pos ho]
        intro h
        exact absurd (congrArg String.data h) (by simp)
      · rw [if_neg ho]
        intro h
        have hjoin : joinSlash (cleanSegs (match p.data with
            | '/' :: _ => true
            | _ => false) (splitSlash p.data)) = [] := by
          have := congrArg String.data h
          simpa using this
        cases hout : cleanSegs (match p.data with
            | '/' :: _ => true
            | _ => false) (splitSlash p.data) with
        | nil => exact ho hout
        | cons s rest =>
          have hne : s ≠ "" := by
            have := cleanRun_mem_ne (match p.data with
                | '/' :: _ => true
                | _ => false) (splitSlash p.data) [] (by simp) s
              (by rw [show cleanRun (match p.data with
                  | '/' :: _ => true
                  | _ => false) [] (splitSlash p.data) = cleanSegs (match p.data with
                  | '/' :: _ => true
                  | _ => false) (splitSlash p.data) from rfl, hout]; simp)
            exact this.1
          rw [hout] at hjoin
          exact joinSlash_ne_nil (s :: rest) (by simp)
            (by
              intro x hx
              rcases List.mem_cons.mp hx with hx | hx
              · rw [hx]; exact hne
              · have := cleanRun_mem_ne (match p.data with
                    | '/' :: _ => true
                    | _ => false) (splitSlash p.data) [] (by simp) x
                  (by rw [show cleanRun (match p.data with
                      | '/' :: _ => true
                      | _ => false) [] (splitSlash p.data) = cleanSegs (match p.data with
                      | '/' :: _ => true
                      | _ => false) (splitSlash p.data) from rfl, hout]; simp [hx])
                exact this.1) hjoin

theorem splitSlash_mem_noslash : ∀ (l : List Char) (s : String),
    s ∈ splitSlash l → ∀ c ∈ s.data, c ≠ '/'
  | [], s, hs => by
    simp only [splitSlash, List.mem_singleton] at hs
    subst hs
    simp
  | c0 :: rest, s, hs => by
    by_cases h : c0 = '/'
    · subst h
      rw [splitSlash_slash] at hs
      rcases List.mem_cons.mp hs with h | h
      · subst h; simp
      · exact splitSlash_mem_noslash rest s h
    · rw [splitSlash_cons_ne c0 h] at hs
      cases hsp : splitSlash rest with
      | nil => exact absurd hsp (splitSlash_ne_nil rest)
      | cons s0 ss =>
        rw [hsp] at hs
        rcases List.mem_cons.mp hs with hh | hh
        · subst hh
          intro c hc
          rcases List.mem_cons.mp hc with hc | hc
          · rw [hc]; exact h
          · exact splitSlash_mem_noslash rest s0 (by rw [hsp]; simp) c hc
        · exact splitSlash_mem_noslash rest s (by rw [hsp]; simp [hh])

theorem cpl_drop_nil_prefix : ∀ a b : List String,
    a.drop (commonPrefixLen a b) = [] → a <+: b
  | [], b, _ => ⟨b, rfl⟩
  | a :: as, [], h => by
    rw [show commonPrefixLen (a :: as) [] = 0 from rfl] at h
    simp at h
  | a :: as, b :: bs, h => by
    by_cases hab : a = b
    · rw [show commonPrefixLen (a :: as) (b :: bs)
          = (if a = b then commonPrefixLen as bs + 1 else 0) from rfl,
        if_pos hab] at h
      rw [List.drop_succ_cons] at h
      obtain ⟨t, ht⟩ := cpl_drop_nil_prefix as bs h
      exact ⟨t, by rw [hab, List.cons_append, ht]⟩
    · rw [show commonPrefixLen (a :: as) (b :: bs)
          = (if a = b then commonPrefixLen as bs + 1 else 0) from rfl,
        if_neg hab] at h
      simp at h

theorem ne_empty_of_data_cons (p : String) (c : Char) (l : List Char)
    (h : p.data = c :: l) : p ≠ "" := by
  intro hcon
  rw [hcon] at h
  simp at h

theorem clean_of_data_slash (p : String) (l : List Char)
    (h : p.data = '/' :: l) (hne : p ≠ "") :
    clean p = String.mk ('/' :: joinSlash (cleanSegs true (splitSlash ('/' :: l)))) := by
  unfold clean
  rw [if_neg hne]
  simp only [h]
  simp

theorem clean_absGood (out : List String) (hgood : ∀ s ∈ out, GoodSeg s) :
    clean (String.mk ('/' :: joinSlash out))
      = String.mk ('/' :: joinSlash out) := by
  have h := clean_of_data_slash (String.mk ('/' :: joinSlash out))
    (joinSlash out) rfl (string_mk_cons_ne_empty _ _)
  rw [h]
  cases hout : out with
  | nil => rfl
  | cons s rest =>
    subst hout
    rw [splitSlash_slash,
      splitSlash_joinSlash (s :: rest) (by simp)
        (fun x hx c hc => (hgood x hx).2.2.2 c hc)]
    unfold cleanSegs
    rw [cleanRun_cons_skip true [] "" (s :: rest) (Or.inl rfl),
      show cleanRun true ([] : List String) (s :: rest)
          = cleanRun true ([] : List String) ((s :: rest) ++ []) by
        rw [List.append_nil],
      cleanRun_goodPass (s :: rest) [] [] hgood]
    rw [show cleanRun true ((s :: rest).reverse ++ []) []
        = ((s :: rest).reverse ++ []).reverse from rfl]
    simp

theorem pathSegs_absGood (out : List String) (hgood : ∀ s ∈ out, GoodSeg s) :
    pathSegs (String.mk ('/' :: joinSlash out)) = out := by
  cases hout : out with
  | nil => rfl
  | cons s rest =>
    subst hout
    have hjoin : joinSlash (s :: rest) ≠ [] :=
      joinSlash_ne_nil (s :: rest) (by simp) (fun x hx => (hgood x hx).1)
    have hne : String.mk ('/' :: joinSlash (s :: rest)) ≠ "/" := by
      intro hcon
      have hd := congrArg String.data hcon
      simp only at hd
      exact hjoin (by simpa using hd)
    unfold pathSegs
    rw [if_neg hne]
    rw [show (String.mk ('/' :: joinSlash (s :: rest))).data.drop 1
        = joinSlash (s :: rest) from rfl]
    exact splitSlash_joinSlash (s :: rest) (by simp)
      (fun x hx c hc => (hgood x hx).2.2.2 c hc)

theorem startsWith_dotdot : ∀ xs : List String,
    strStartsWith (String.mk (joinSlash (".." :: xs))) ".." = true
  | [] => rfl
  | y :: ys => rfl

theorem relClean_abs_ne (rp out : List String) (hrp : ∀ s ∈ rp, GoodSeg s)
    (hout : ∀ s ∈ out, GoodSeg s)
    (hneq : String.mk ('/' :: joinSlash rp) ≠ String.mk ('/' :: joinSlash out)) :
    relClean (String.mk ('/' :: joinSlash rp)) (String.mk ('/' :: joinSlash out))
      = (if rp.drop (commonPrefixLen rp out) = []
         then String.mk (joinSlash (out.drop (commonPrefixLen rp out)))
         else String.mk (joinSlash
           (List.replicate (rp.drop (commonPrefixLen rp out)).length ".."
             ++ out.drop (commonPrefixLen rp out)))) := by
  unfold relClean
  rw [clean_absGood rp hrp, clean_absGood out hout, if_neg hneq,
    pathSegs_absGood rp hrp, pathSegs_absGood out hout]

theorem safeExtractPath_ok_inside (root : String) (rp : List String)
    (hroot : CleanAbsRoot root rp) (name t : String)
    (hok : safeExtractPath root name = .ok t) :
    t = root ∨ strStartsWith t (root ++ "/") = true := by
  obtain ⟨hdata, hrpne, hgood⟩ := hroot
  have hrootmk : root = String.mk ('/' :: joinSlash rp) := by
    rw [← hdata]
  have hrootne : root ≠ "" := by
    rw [hrootmk]
    exact string_mk_cons_ne_empty _ _
  have hclne : clean name ≠ "" := clean_ne_empty name
  have hcat : (root ++ "/" ++ clean name).data
      = '/' :: (joinSlash rp ++ '/' :: (clean name).data) := by
    rw [String.data_append, String.data_append, hdata]
    simp
  have hcatne : (root ++ "/" ++ clean name) ≠ "" :=
    ne_empty_of_data_cons _ _ _ hcat
  obtain ⟨i, extra, hi, hrun, hextra⟩ :=
    cleanRun_stack (splitSlash (clean name).data) rp.reverse
      (by
        intro s hs
        exact (hgood s (List.mem_reverse.mp hs)).2.2.1)
  have houteq : cleanSegs true
      ("" :: (rp ++ splitSlash (clean name).data))
      = rp.take (rp.length - i) ++ extra := by
    unfold cleanSegs
    rw [cleanRun_cons_skip true [] "" _ (Or.inl rfl),
      show cleanRun true ([] : List String) (rp ++ splitSlash (clean name).data)
          = cleanRun true (rp.reverse ++ [])
              (splitSlash (clean name).data) from
        cleanRun_goodPass rp _ [] hgood,
      List.append_nil, hrun, List.drop_reverse, List.reverse_reverse]
  have houtgood : ∀ s ∈ rp.take (rp.length - i) ++ extra, GoodSeg s := by
    intro s hs
    rcases List.mem_append.mp hs with h | h
    · exact hgood s (List.mem_of_mem_take h)
    · obtain ⟨a1, a2, a3, a4⟩ := hextra s h
      exact ⟨a1, a2, a3, splitSlash_mem_noslash _ s a4⟩
  have htarget : joinPath root (clean name)
      = String.mk ('/' :: joinSlash (rp.take (rp.length - i) ++ extra)) := by
    unfold joinPath
    rw [if_neg hrootne, if_neg hclne,
      clean_of_data_slash _ _ hcat hcatne, splitSlash_slash,
      splitSlash_append,
      splitSlash_joinSlash rp hrpne (fun s hs c hc => (hgood s hs).2.2.2 c hc),
      houteq]
  have hsafe : safeExtractPath root name
      = (if strStartsWith (relClean root
            (String.mk ('/' :: joinSlash (rp.take (rp.length - i) ++ extra))))
            ".." = true
         then .error "tar entry escapes destination"
         else .ok (String.mk ('/' :: joinSlash
            (rp.take (rp.length - i) ++ extra)))) := by
    unfold safeExtractPath
    simp only [htarget]
  rw [hsafe] at hok
  by_cases heq : root
      = String.mk ('/' :: joinSlash (rp.take (rp.length - i) ++ extra))
  · have hrel : relClean root
        (String.mk ('/' :: joinSlash (rp.take (rp.length - i) ++ extra)))
        = "." := by
      unfold relClean
      rw [hrootmk] at heq ⊢
      rw [clean_absGood rp hgood, clean_absGood _ houtgood, if_pos heq]
    rw [hrel] at hok
    rw [show strStartsWith "." ".." = false from rfl] at hok
    simp only [Bool.false_eq_true, if_false, Except.ok.injEq] at hok
    left
    rw [← hok, ← heq]
  · have hrel := relClean_abs_ne rp (rp.take (rp.length - i) ++ extra)
      hgood houtgood (by rw [← hrootmk]; exact heq)
    rw [hrootmk] at hok
    rw [hrel] at hok
    by_cases hbr : rp.drop (commonPrefixLen rp
        (rp.take (rp.length - i) ++ extra)) = []
    · rw [if_pos hbr] at hok
      have hpre : rp <+: rp.take (rp.length - i) ++ extra :=
        cpl_drop_nil_prefix _ _ hbr
      obtain ⟨extra2, hout2⟩ := hpre
      have hx2 : extra2 ≠ [] := by
        intro hcon
        rw [hcon, List.append_nil] at hout2
        exact heq (by rw [hrootmk, ← hout2])
      cases hsw : strStartsWith (String.mk (joinSlash
          ((rp.take (rp.length - i) ++ extra).drop
            (commonPrefixLen rp (rp.take (rp.length - i) ++ extra))))) ".." with
      | true =>
        rw [hsw] at hok
        simp at hok
      | false =>
        rw [hsw] at hok
        simp only [Bool.false_eq_true, if_false, Except.ok.injEq] at hok
        right
        rw [← hok]
        unfold strStartsWith
        apply List.isPrefixOf_iff_prefix.mpr
        rw [String.data_append, hdata,
          show ("/" : String).data = ['/'] from rfl,
        show (String.mk ('/' :: joinSlash (rp.take (rp.length - i) ++ extra))).data
            = '/' :: joinSlash (rp.take (rp.length - i) ++ extra) from rfl,
          ← hout2, joinSlash_append_ne rp extra2 hrpne hx2]
        refine ⟨joinSlash extra2, ?_⟩
        simp
    · rw [if_neg hbr] at hok
      cases hd : rp.drop (commonPrefixLen rp
          (rp.take (rp.length - i) ++ extra)) with
      | nil => exact absurd hd hbr
      | cons a b =>
        rw [hd] at hok
        rw [show List.replicate (a :: b).length ".."
            = ".." :: List.replicate b.length ".." from rfl,
          List.cons_append, startsWith_dotdot] at hok
        simp at hok


theorem extractPaths_cons (root : String) (e : TarEntry)
    (rest : List TarEntry) :
    extractPaths root (e :: rest)
      = (if e.name = "" then extractPaths root rest
         else
           match safeExtractPath root e.name with
           | .error err => .error err
           | .ok target =>
             match e.typeflag with
             | .other => extractPaths root rest
             | _ =>
               match extractPaths root rest with
               | .error err => .error err
               | .ok paths => .ok (target :: paths)) := by
  conv_lhs => rw [extractPaths.eq_def]
theorem extractPaths_mem_entries (root : String) :
    ∀ (entries : List TarEntry) (out : List String),
      extractPaths root entries = .ok out →
      ((∀ e ∈ entries, e.name ≠ "" →
          ∃ t, safeExtractPath root e.name = .ok t) ∧
       (∀ P ∈ out, ∃ e ∈ entries,
          (e.typeflag = .dir ∨ e.typeflag = .reg ∨ e.typeflag = .symlink) ∧
          safeExtractPath root e.name = .ok P))
  | [], out, hok => by
    refine ⟨fun e he => absurd he (by simp), ?_⟩
    simp only [extractPaths, Except.ok.injEq] at hok
    subst hok
    simp
  | e :: rest, out, hok => by
    by_cases hname : e.name = ""
    · rw [extractPaths_cons, if_pos hname] at hok
      obtain ⟨h1, h2⟩ := extractPaths_mem_entries root rest out hok
      refine ⟨?_, ?_⟩
      · intro e2 he2 hne
        rcases List.mem_cons.mp he2 with h | h
        · exact absurd (by rw [h]; exact hname) hne
        · exact h1 e2 h hne
      · intro P hP
        obtain ⟨e2, he2, hflag, hsp⟩ := h2 P hP
        exact ⟨e2, by simp [he2], hflag, hsp⟩
    · have hstep : extractPaths root (e :: rest)
          = (match safeExtractPath root e.name with
             | .error err => .error err
             | .ok target =>
               match e.typeflag with
               | .other => extractPaths root rest
               | _ =>
                 match extractPaths root rest with
                 | .error err => .error err
                 | .ok paths => .ok (target :: paths)) := by
        rw [extractPaths_cons, if_neg hname]
      rw [hstep] at hok
      cases hape : safeExtractPath root e.name with
      | error err =>
        rw [hape] at hok
        simp at hok
      | ok target =>
        rw [hape] at hok
        have hcommon : ∀ out2, extractPaths root rest = .ok out2 →
            ((∀ e2 ∈ e :: rest, e2.name ≠ "" →
                ∃ t, safeExtractPath root e2.name = .ok t) ∧
             (∀ P ∈ out2, ∃ e2 ∈ e :: rest,
                (e2.typeflag = .dir ∨ e2.typeflag = .reg ∨
                  e2.typeflag = .symlink) ∧
                safeExtractPath root e2.name = .ok P)) := by
          intro out2 hok2
          obtain ⟨h1, h2⟩ := extractPaths_mem_entries root rest out2 hok2
          refine ⟨?_, ?_⟩
          · intro e2 he2 hne
            rcases List.mem_cons.mp he2 with h | h
            · exact ⟨target, by rw [h]; exact hape⟩
            · exact h1 e2 h hne
          · intro P hP
            obtain ⟨e2, he2, hflag, hsp⟩ := h2 P hP
            exact ⟨e2, by simp [he2], hflag, hsp⟩
        cases htf : e.typeflag with
        | other =>
          simp only [htf] at hok
          exact hcommon out hok
        | dir =>
          simp only [htf] at hok
          cases hrest : extractPaths root rest with
          | error err => rw [hrest] at hok; simp at hok
          | ok paths =>
            rw [hrest] at hok
            simp only [Except.ok.injEq] at hok
            subst hok
            obtain ⟨h1, h2⟩ := hcommon paths hrest
            refine ⟨h1, ?_⟩
            intro P hP
            rcases List.mem_cons.mp hP with h | h
            · exact ⟨e, by simp, by rw [htf]; simp, by rw [← h] at hape; exact hape⟩
            · exact h2 P h
        | reg =>
          simp only [htf] at hok
          cases hrest : extractPaths root rest with
          | error err => rw [hrest] at hok; simp at hok
          | ok paths =>
            rw [hrest] at hok
            simp only [Except.ok.injEq] at hok
            subst hok
            obtain ⟨h1, h2⟩ := hcommon paths hrest
            refine ⟨h1, ?_⟩
            intro P hP
            rcases List.mem_cons.mp hP with h | h
            · exact ⟨e, by simp, by rw [htf]; simp, by rw [← h] at hape; exact hape⟩
            · exact h2 P h
        | symlink =>
          simp only [htf] at hok
          cases hrest : extractPaths root rest with
          | error err => rw [hrest] at hok; simp at hok
          | ok paths =>
            rw [hrest] at hok
            simp only [Except.ok.injEq] at hok
            subst hok
            obtain ⟨h1, h2⟩ := hcommon paths hrest
            refine ⟨h1, ?_⟩
            intro P hP
            rcases List.mem_cons.mp hP with h | h
            · exact ⟨e, by simp, by rw [htf]; simp, by rw [← h] at hape; exact hape⟩
            · exact h2 P h

/-- C3 (amended): for every archive entry list processed over a fresh clean
absolute extraction root, when extraction succeeds every materialized path
is the root itself (which happens only for entries whose name cleans to the
root, such as "." or "/") or lies strictly inside it (`root ++ "/"` is a
prefix); every entry with a non-empty name resolves through
`safeExtractPath` to such a path, so any entry whose resolved path would
escape the root makes the whole extraction fail; and every produced path
comes from a directory, regular-file or symlink entry. -/
theorem extractFeatureArchive_paths_inside (root : String) (rp : List String)
    (hroot : CleanAbsRoot root rp) (entries : List TarEntry)
    (out : List String) (hok : extractPaths root entries = .ok out) :
    (∀ P ∈ out, P = root ∨ strStartsWith P (root ++ "/") = true) ∧
    (∀ e ∈ entries, e.name ≠ "" →
      ∃ t, safeExtractPath root e.name = .ok t ∧
        (t = root ∨ strStartsWith t (root ++ "/") = true)) ∧
    (∀ P ∈ out, ∃ e ∈ entries,
      (e.typeflag = .dir ∨ e.typeflag = .reg ∨ e.typeflag = .symlink) ∧
      safeExtractPath root e.name = .ok P) := by
  obtain ⟨h1, h2⟩ := extractPaths_mem_entries root entries out hok
  refine ⟨?_, ?_, h2⟩
  · intro P hP
    obtain ⟨e, _, _, hsp⟩ := h2 P hP
    exact safeExtractPath_ok_inside root rp hroot e.name P hsp
  · intro e he hne
    obtain ⟨t, ht⟩ := h1 e he hne
    exact ⟨t, ht, safeExtractPath_ok_inside root rp hroot e.name t ht⟩

/-- C3 counterexample: the common tar entry "." (the archive root directory)
is materialized at the extraction root itself, which does not start with
`root ++ "/"`, refuting the claim that every produced path has that strict
prefix. -/
theorem extractFeatureArchive_counterexample :
    extractPaths "/tmp/root" [⟨".", .dir, ""⟩] = .ok ["/tmp/root"] ∧
    strStartsWith "/tmp/root" ("/tmp/root" ++ "/") = false := by
  constructor
  · rfl
  · rfl

/-- C3 witness: the amended theorem applied to a concrete root and
archive. -/
theorem extractFeatureArchive_paths_inside_witness :
    "/tmp/root/a" = "/tmp/root" ∨
    strStartsWith "/tmp/root/a" ("/tmp/root" ++ "/") = true :=
  (extractFeatureArchive_paths_inside "/tmp/root" ["tmp", "root"] (by decide)
    [⟨"a", .reg, ""⟩] ["/tmp/root/a"] (by rfl)).1 "/tmp/root/a" (by simp)

/-- Permutations preserve `List.any`. -/
theorem perm_any {α : Type} {l₁ l₂ : List α} (h : l₁.Perm l₂)
    (p : α → Bool) : l₁.any p = l₂.any p := by
  cases h1 : l₁.any p <;> cases h2 : l₂.any p <;> try rfl
  · rw [List.any_eq_false] at h1
    rw [List.any_eq_true] at h2
    obtain ⟨x, hx, hpx⟩ := h2
    exact absurd hpx (by simpa using h1 x (h.mem_iff.mpr hx))
  · rw [List.any_eq_false] at h2
    rw [List.any_eq_true] at h1
    obtain ⟨x, hx, hpx⟩ := h1
    exact absurd hpx (by simpa using h2 x (h.mem_iff.mp hx))

/-- Permutations preserve `List.all`. -/
theorem perm_all {α : Type} {l₁ l₂ : List α} (h : l₁.Perm l₂)
    (p : α → Bool) : l₁.all p = l₂.all p := by
  cases h1 : l₁.all p <;> cases h2 : l₂.all p <;> try rfl
  · rw [List.all_eq_false] at h1
    rw [List.all_eq_true] at h2
    obtain ⟨x, hx, hpx⟩ := h1
    exact absurd (h2 x (h.mem_iff.mp hx)) hpx
  · rw [List.all_eq_false] at h2
    rw [List.all_eq_true] at h1
    obtain ⟨x, hx, hpx⟩ := h2
    exact absurd (h1 x (h.mem_iff.mpr hx)) hpx

/-- `List.any` after a map is `any` of the composite. -/
theorem any_map_general {α β : Type} (f : α → β) (p : β → Bool) :
    ∀ l : List α, (l.map f).any p = l.any (fun a => p (f a))
  | [] => rfl
  | a :: t => by
    simp only [List.map_cons, List.any_cons]
    rw [any_map_general f p t]

/-- A filter that drops at least one element is strictly shorter. -/
theorem filter_length_lt {α : Type} (p : α → Bool) (l : List α) (a : α)
    (ha : a ∈ l) (hp : p a = false) : (l.filter p).length < l.length := by
  induction l with
  | nil => cases ha
  | cons b l ih =>
    rcases List.mem_cons.mp ha with h | h
    · subst h
      rw [List.filter_cons_of_neg (by simp [hp])]
      simp only [List.length_cons]
      exact Nat.lt_succ_of_le (List.length_filter_le p l)
    · by_cases hb : p b = true
      · rw [List.filter_cons_of_pos hb]
        simpa using ih h
      · rw [List.filter_cons_of_neg (by simpa using hb)]
        exact Nat.lt_succ_of_lt (ih h)

/-- Pointwise-permuting the inner function permutes the flatMap. -/
theorem flatMap_perm_of_perm {α β : Type} (f g : α → List β) :
    ∀ l : List α, (∀ x, (f x).Perm (g x)) →
      (l.flatMap f).Perm (l.flatMap g)
  | [], _ => List.Perm.refl _
  | a :: t, hfg => by
    simp only [List.flatMap_cons]
    exact (hfg a).append (flatMap_perm_of_perm f g t hfg)

/-- The base is below a fold of maxima. -/
theorem le_foldl_max {α : Type} (g : α → Nat) :
    ∀ (l : List α) (b : Nat), b ≤ l.foldl (fun m k => max m (g k)) b
  | [], b => Nat.le_refl b
  | a :: t, b => Nat.le_trans (Nat.le_max_left b (g a)) (le_foldl_max g t _)

/-- Every member's value is below the fold of maxima. -/
theorem foldl_max_ge {α : Type} (g : α → Nat) :
    ∀ (l : List α) (b : Nat) (k : α), k ∈ l →
      g k ≤ l.foldl (fun m k => max m (g k)) b := by
  intro l
  induction l with
  | nil => intro b k hk; cases hk
  | cons a t ih =>
    intro b k hk
    simp only [List.foldl_cons]
    rcases List.mem_cons.mp hk with h | h
    · subst h
      exact Nat.le_trans (Nat.le_max_right b (g k)) (le_foldl_max g t _)
    · exact ih _ k h

/-- The fold of maxima is the base or is attained by a member. -/
theorem foldl_max_attained {α : Type} (g : α → Nat) :
    ∀ (l : List α) (b : Nat),
      l.foldl (fun m k => max m (g k)) b = b ∨
      ∃ k ∈ l, g k = l.foldl (fun m k => max m (g k)) b := by
  intro l
  induction l with
  | nil => intro b; exact Or.inl rfl
  | cons a t ih =>
    intro b
    simp only [List.foldl_cons]
    rcases ih (max b (g a)) with h | h
    · rw [h]
      rcases Nat.le_total (g a) b with hba | hba
      · exact Or.inl (Nat.max_eq_left hba)
      · exact Or.inr ⟨a, List.mem_cons_self a t, (Nat.max_eq_right hba).symm⟩
    · obtain ⟨k, hk, hgk⟩ := h
      exact Or.inr ⟨k, List.mem_cons_of_mem a hk, hgk⟩

/-- On a nonempty list starting from 0, the fold of maxima is attained. -/
theorem foldl_max_mem {α : Type} (g : α → Nat) (l : List α) (hne : l ≠ []) :
    ∃ k ∈ l, g k = l.foldl (fun m k => max m (g k)) 0 := by
  rcases foldl_max_attained g l 0 with h | h
  · cases l with
    | nil => exact absurd rfl hne
    | cons a t =>
      refine ⟨a, List.mem_cons_self a t, ?_⟩
      have hga := foldl_max_ge g (a :: t) 0 a (List.mem_cons_self a t)
      omega
  · exact h

/-- charListLt is asymmetric. -/
theorem charListLt_asymm : ∀ (a b : List Char),
    charListLt a b = true → charListLt b a = false := by
  intro a
  induction a with
  | nil =>
    intro b h
    cases b with
    | nil => simp [charListLt] at h
    | cons c cs => simp [charListLt]
  | cons x xs ih =>
    intro b h
    cases b with
    | nil => simp [charListLt] at h
    | cons y ys =>
      simp only [charListLt] at h ⊢
      by_cases h1 : x.toNat < y.toNat
      · rw [if_neg (by omega : ¬ y.toNat < x.toNat), if_pos h1]
      · by_cases h2 : y.toNat < x.toNat
        · rw [if_neg h1, if_pos h2] at h
          simp at h
        · rw [if_neg h1, if_neg h2] at h
          rw [if_neg h2, if_neg h1]
          exact ih ys h

/-- charListLt is irreflexive. -/
theorem charListLt_irrefl : ∀ (a : List Char), charListLt a a = false
  | [] => rfl
  | x :: xs => by
    have h := Nat.lt_irrefl x.toNat
    simp only [charListLt, if_neg h]
    exact charListLt_irrefl xs

/-- charListLt is transitive. -/
theorem charListLt_trans : ∀ (a b c : List Char),
    charListLt a b = true → charListLt b c = true → charListLt a c = true
  | _, b, [] => fun _ h2 => by simp [charListLt] at h2
  | a, [], _ :: _ => fun h1 _ => by cases a <;> simp [charListLt] at h1
  | [], _ :: _, _ :: _ => fun _ _ => by simp [charListLt]
  | x :: xs, y :: ys, z :: zs => fun h1 h2 => by
    simp only [charListLt] at h1 h2 ⊢
    by_cases hxy : x.toNat < y.toNat
    · by_cases hyz : y.toNat < z.toNat
      · rw [if_pos (by omega : x.toNat < z.toNat)]
      · rw [if_neg hyz] at h2
        by_cases hzy : z.toNat < y.toNat
        · rw [if_pos hzy] at h2; simp at h2
        · rw [if_pos (by omega : x.toNat < z.toNat)]
    · rw [if_neg hxy] at h1
      by_cases hyx : y.toNat < x.toNat
      · rw [if_pos hyx] at h1; simp at h1
      · rw [if_neg hyx] at h1
        by_cases hyz : y.toNat < z.toNat
        · rw [if_pos (by omega : x.toNat < z.toNat)]
        · rw [if_neg hyz] at h2
          by_cases hzy : z.toNat < y.toNat
          · rw [if_pos hzy] at h2; simp at h2
          · rw [if_neg hzy] at h2
            rw [if_neg (by omega : ¬ x.toNat < z.toNat),
              if_neg (by omega : ¬ z.toNat < x.toNat)]
            exact charListLt_trans xs ys zs h1 h2

/-- Two char lists neither of which is below the other are equal. -/
theorem charListLt_eq_of_not : ∀ (a b : List Char),
    charListLt a b = false → charListLt b a = false → a = b
  | [], [] => fun _ _ => rfl
  | [], _ :: _ => fun h1 _ => by simp [charListLt] at h1
  | _ :: _, [] => fun _ h2 => by simp [charListLt] at h2
  | x :: xs, y :: ys => fun h1 h2 => by
    simp only [charListLt] at h1 h2
    by_cases hxy : x.toNat < y.toNat
    · rw [if_pos hxy] at h1; simp at h1
    · rw [if_neg hxy] at h1
      by_cases hyx : y.toNat < x.toNat
      · rw [if_pos hyx] at h2; simp at h2
      · rw [if_neg hyx] at h1
        rw [if_neg hyx, if_neg hxy] at h2
        have hchar : x = y :=
          Char.ext (UInt32.ext (by omega : x.toNat = y.toNat))
        rw [hchar, charListLt_eq_of_not xs ys h1 h2]

/-- strLt is asymmetric. -/
theorem strLt_asymm {a b : String} (h : strLt a b = true) :
    strLt b a = false :=
  charListLt_asymm a.data b.data h

/-- `strLe` is reflexive. -/
theorem strLe_refl (a : String) : strLe a a = true := by
  simp only [strLe, strLt, charListLt_irrefl, Bool.not_false]

/-- `strLe` is total. -/
theorem strLe_total (a b : String) : strLe a b = true ∨ strLe b a = true := by
  simp only [strLe, strLt, Bool.not_eq_true']
  cases h : charListLt b.data a.data
  · exact Or.inl rfl
  · exact Or.inr (charListLt_asymm _ _ h)

/-- Of two distinct strings, exactly one is below the other. -/
theorem strLt_of_ne_of_not {a b : String} (hne : a ≠ b)
    (h : strLt a b = false) : strLt b a = true := by
  cases hba : strLt b a
  · exact absurd (String.ext (charListLt_eq_of_not a.data b.data h hba)) hne
  · rfl

/-- `strLe` is transitive. -/
theorem strLe_trans {a b c : String} (h1 : strLe a b = true)
    (h2 : strLe b c = true) : strLe a c = true := by
  simp only [strLe, strLt, Bool.not_eq_true'] at h1 h2 ⊢
  cases hca : charListLt c.data a.data
  · rfl
  · exfalso
    cases hbc : charListLt b.data c.data
    · have hbc' : b.data = c.data := charListLt_eq_of_not _ _ hbc h2
      rw [hbc', hca] at h1
      simp at h1
    · have : charListLt b.data a.data = true :=
        charListLt_trans _ _ _ hbc hca
      rw [this] at h1
      simp at h1

/-- `strLe` is antisymmetric. -/
theorem strLe_antisymm {a b : String} (h1 : strLe a b = true)
    (h2 : strLe b a = true) : a = b := by
  simp only [strLe, strLt, Bool.not_eq_true'] at h1 h2
  exact String.ext (charListLt_eq_of_not a.data b.data h2 h1)

/-- Permutation plus sortedness pins the string list down uniquely. -/
theorem perm_sorted_strings_eq {l1 l2 : List String} (h : l1.Perm l2)
    (h1 : l1.Pairwise (fun s t => strLe s t = true))
    (h2 : l2.Pairwise (fun s t => strLe s t = true)) : l1 = l2 := by
  haveI : IsAntisymm String (fun s t => strLe s t = true) :=
    ⟨fun _ _ => strLe_antisymm⟩
  exact List.eq_of_perm_of_sorted h h1 h2

/-- Membership in an insertion. -/
theorem sInsert_mem {α : Type} (le : α → α → Bool) (a : α) (l : List α)
    (x : α) (hx : x ∈ sInsert le a l) : x = a ∨ x ∈ l := by
  have h := (sInsert_perm le a l).mem_iff.mp hx
  simpa using h

/-- Inserting into a list pairwise-related under a transitive weakening `R`
of a total boolean relation `le` keeps it pairwise related. -/
theorem sInsert_pairwise {α : Type} {le : α → α → Bool} {R : α → α → Prop}
    (htot : ∀ x y, le x y = true ∨ le y x = true)
    (hle : ∀ x y, le x y = true → R x y)
    (htrans : ∀ x y z, R x y → R y z → R x z) (a : α) :
    ∀ l : List α, l.Pairwise R → (sInsert le a l).Pairwise R
  | [], _ => List.Pairwise.cons (by intro b hb; cases hb) List.Pairwise.nil
  | b :: t, hp => by
    unfold sInsert
    rcases hp with _ | ⟨hb, ht⟩
    by_cases h : le a b = true
    · rw [if_pos h]
      refine List.Pairwise.cons ?_ (List.Pairwise.cons hb ht)
      intro y hy
      rcases List.mem_cons.mp hy with rfl | hyt
      · exact hle a y h
      · exact htrans a b y (hle a b h) (hb y hyt)
    · rw [if_neg h]
      have hba : le b a = true := (htot a b).resolve_left h
      refine List.Pairwise.cons ?_ (sInsert_pairwise htot hle htrans a t ht)
      intro y hy
      rcases sInsert_mem le a t y hy with rfl | hyt
      · exact hle b y hba
      · exact hb y hyt

/-- The output of the stable sort is pairwise related under any transitive
weakening of a total boolean relation. -/
theorem stableSort_pairwise {α : Type} {le : α → α → Bool} {R : α → α → Prop}
    (htot : ∀ x y, le x y = true ∨ le y x = true)
    (hle : ∀ x y, le x y = true → R x y)
    (htrans : ∀ x y z, R x y → R y z → R x z) :
    ∀ l : List α, (stableSort le l).Pairwise R
  | [] => List.Pairwise.nil
  | x :: xs => by
    unfold stableSort
    exact sInsert_pairwise htot hle htrans x _
      (stableSort_pairwise htot hle htrans xs)

/-- Comparing against the empty version negates the tail comparison. -/
theorem compareSemverParts_nil_right : ∀ (bs : List Int),
    compareSemverParts bs [] = -compareSemverTail bs
  | [] => by decide
  | b :: bs => by
    simp only [compareSemverParts, compareSemverTail]
    by_cases h : b = (0 : Int)
    · rw [if_neg (by omega : ¬ b ≠ 0), if_neg (by omega : ¬ b ≠ 0)]
      exact compareSemverParts_nil_right bs
    · rw [if_pos (by omega : b ≠ 0), if_pos (by omega : b ≠ 0)]
      by_cases hb : b < (0 : Int)
      · rw [if_pos hb, if_neg (by omega : ¬ (0 : Int) < b)]
      · rw [if_neg hb, if_pos (by omega : (0 : Int) < b)]
        decide

/-- Swapping the arguments of compareSemverParts negates the result. -/
theorem compareSemverParts_neg : ∀ (a b : List Int),
    compareSemverParts b a = -compareSemverParts a b
  | [], bs => by
    show compareSemverParts bs [] = -compareSemverTail bs
    exact compareSemverParts_nil_right bs
  | a :: as, [] => by
    show compareSemverTail (a :: as) = -compareSemverParts (a :: as) []
    rw [compareSemverParts_nil_right (a :: as)]
    omega
  | a :: as, b :: bs => by
    simp only [compareSemverParts]
    by_cases h : a = b
    · subst h
      rw [if_neg (by omega : ¬ a ≠ a), if_neg (by omega : ¬ a ≠ a)]
      exact compareSemverParts_neg as bs
    · rw [if_pos (by omega : b ≠ a), if_pos (by omega : a ≠ b)]
      by_cases hab : a < b
      · rw [if_neg (by omega : ¬ b < a), if_pos hab]
        decide
      · rw [if_pos (by omega : b < a), if_neg hab]

/-- Swapping the arguments of compareFeatureTag negates the result. -/
theorem compareFeatureTag_neg (a b : String) :
    compareFeatureTag b a = -compareFeatureTag a b := by
  unfold compareFeatureTag
  by_cases hab : a = b
  · subst hab
    rw [if_pos rfl]
    decide
  · rw [if_neg (fun h => hab h.symm), if_neg hab]
    by_cases hal : a = "latest"
    · subst hal
      have hb : ¬ b = "latest" := fun h => hab h.symm
      rw [if_neg hb, if_neg hb, if_pos rfl, if_pos rfl]
    · by_cases hbl : b = "latest"
      · subst hbl
        rw [if_pos rfl, if_neg hal, if_pos rfl]
        decide
      · rw [if_neg hbl, if_neg hal, if_neg hal, if_neg hbl]
        rcases hpa : parseSemver a with _ | pa <;>
          rcases hpb : parseSemver b with _ | pb <;>
          simp only [hpa, hpb]
        · cases hx : strLt a b
          · rw [if_pos (strLt_of_ne_of_not hab hx), if_neg (by simp)]
          · rw [if_neg (by simp [strLt_asymm hx]), if_pos rfl]
            decide
        · cases hx : strLt a b
          · rw [if_pos (strLt_of_ne_of_not hab hx), if_neg (by simp)]
          · rw [if_neg (by simp [strLt_asymm hx]), if_pos rfl]
            decide
        · cases hx : strLt a b
          · rw [if_pos (strLt_of_ne_of_not hab hx), if_neg (by simp)]
          · rw [if_neg (by simp [strLt_asymm hx]), if_pos rfl]
            decide
        · exact compareSemverParts_neg pa pb

/-- Swapping the arguments of compareStringSlices negates the result. -/
theorem compareStringSlices_neg : ∀ (a b : List String),
    compareStringSlices b a = -compareStringSlices a b
  | [], [] => by decide
  | [], _ :: _ => by simp only [compareStringSlices]; decide
  | _ :: _, [] => by simp only [compareStringSlices]
  | a :: as, b :: bs => by
    simp only [compareStringSlices]
    by_cases h : a = b
    · subst h
      rw [if_pos rfl, if_pos rfl]
      exact compareStringSlices_neg as bs
    · rw [if_neg (fun hh => h hh.symm), if_neg h]
      cases hx : strLt a b
      · rw [if_pos (strLt_of_ne_of_not h hx), if_neg (by simp)]
      · rw [if_neg (by simp [strLt_asymm hx]), if_pos rfl]
        decide

/-- featureLess is asymmetric: its tie-break chain flips sign on swap. -/
theorem featureLess_asymm {a b : ResolvedFeature}
    (h : featureLess a b = true) : featureLess b a = false := by
  simp only [featureLess] at h ⊢
  by_cases h1 : a.baseName ≠ b.baseName
  · rw [if_pos h1] at h
    rw [if_pos (Ne.symm h1)]
    exact strLt_asymm h
  · have heq1 : a.baseName = b.baseName := not_not.mp h1
    rw [if_neg h1] at h
    rw [if_neg (fun hh => hh heq1.symm)]
    by_cases h2 : a.tag ≠ b.tag
    · rw [if_pos h2] at h
      rw [if_pos (Ne.symm h2)]
      have hlt := of_decide_eq_true h
      rw [compareFeatureTag_neg a.tag b.tag]
      exact decide_eq_false (by omega)
    · have heq2 : a.tag = b.tag := not_not.mp h2
      rw [if_neg h2] at h
      rw [if_neg (fun hh => hh heq2.symm)]
      by_cases h3 : a.options.userValues.length ≠ b.options.userValues.length
      · rw [if_pos h3] at h
        rw [if_pos (Ne.symm h3)]
        have hlt := of_decide_eq_true h
        exact decide_eq_false (by omega)
      · have heq3 : a.options.userValues.length = b.options.userValues.length :=
          not_not.mp h3
        rw [if_neg h3] at h
        rw [if_neg (fun hh => hh heq3.symm)]
        by_cases h4 : compareStringSlices (sortedKeys a.options.userValues)
            (sortedKeys b.options.userValues) ≠ 0
        · rw [if_pos h4] at h
          have hlt := of_decide_eq_true h
          rw [if_pos (show compareStringSlices (sortedKeys b.options.userValues)
              (sortedKeys a.options.userValues) ≠ 0 by
            rw [compareStringSlices_neg]; omega)]
          rw [compareStringSlices_neg (sortedKeys a.options.userValues)
            (sortedKeys b.options.userValues)]
          exact decide_eq_false (by omega)
        · have heq4 := not_not.mp h4
          rw [if_neg h4] at h
          rw [if_neg (show ¬ compareStringSlices
              (sortedKeys b.options.userValues)
              (sortedKeys a.options.userValues) ≠ 0 by
            rw [compareStringSlices_neg, heq4]; decide)]
          by_cases h5 : compareStringSlices
              (valuesForKeys a.options.userValues (sortedKeys a.options.userValues))
              (valuesForKeys b.options.userValues (sortedKeys b.options.userValues)) ≠ 0
          · rw [if_pos h5] at h
            have hlt := of_decide_eq_true h
            rw [if_pos (show compareStringSlices
                (valuesForKeys b.options.userValues (sortedKeys b.options.userValues))
                (valuesForKeys a.options.userValues (sortedKeys a.options.userValues)) ≠ 0 by
              rw [compareStringSlices_neg]; omega)]
            rw [compareStringSlices_neg
              (valuesForKeys a.options.userValues (sortedKeys a.options.userValues))
              (valuesForKeys b.options.userValues (sortedKeys b.options.userValues))]
            exact decide_eq_false (by omega)
          · have heq5 := not_not.mp h5
            rw [if_neg h5] at h
            rw [if_neg (show ¬ compareStringSlices
                (valuesForKeys b.options.userValues (sortedKeys b.options.userValues))
                (valuesForKeys a.options.userValues (sortedKeys a.options.userValues)) ≠ 0 by
              rw [compareStringSlices_neg, heq5]; decide)]
            exact strLt_asymm h

/-- The boolean order used to sort a commit is total. -/
theorem featureLess_total (a b : ResolvedFeature) :
    (!(featureLess b a)) = true ∨ (!(featureLess a b)) = true := by
  cases hx : featureLess b a
  · exact Or.inl rfl
  · rw [featureLess_asymm hx]
    exact Or.inr rfl

/-- The commit order is bounded below by the baseName string order. -/
theorem featureLess_le_baseName {x y : ResolvedFeature}
    (h : (!(featureLess y x)) = true) :
    strLe x.baseName y.baseName = true := by
  by_cases hbn : y.baseName = x.baseName
  · rw [hbn]
    exact strLe_refl _
  · have hless : featureLess y x = strLt y.baseName x.baseName := by
      simp only [featureLess]
      rw [if_pos hbn]
    rw [Bool.not_eq_true'] at h
    rw [hless] at h
    simp only [strLe, h, Bool.not_false]

/-- Sorting a commit with featureLess yields baseNames in nondecreasing
string order. -/
theorem stableSort_featureLess_sorted (l : List ResolvedFeature) :
    (stableSort (fun x y => !(featureLess y x)) l).Pairwise
      (fun f g => strLe f.baseName g.baseName = true) :=
  stableSort_pairwise
    (fun x y => featureLess_total x y)
    (fun _ _ h => featureLess_le_baseName h)
    (fun _ _ _ hxy hyz => strLe_trans hxy hyz) l

/-- FeatEqv is reflexive. -/
theorem featEqv_refl (f : ResolvedFeature) : FeatEqv f f :=
  ⟨rfl, rfl, rfl, rfl, rfl, List.Perm.refl _, rfl, rfl, rfl⟩

/-- attachOne leaves the dependency key unchanged. -/
theorem attachOne_key (l : List ResolvedFeature) (f : ResolvedFeature) :
    (attachOne l f).dependencyKey = f.dependencyKey := rfl

/-- Attaching installsAfter keys against permuted feature lists produces
FeatEqv-related features. -/
theorem attachOne_eqv {l1 l2 : List ResolvedFeature} (h : l1.Perm l2)
    (f : ResolvedFeature) : FeatEqv (attachOne l1 f) (attachOne l2 f) := by
  refine ⟨rfl, rfl, rfl, rfl, rfl, ?_, rfl, rfl, rfl⟩
  exact List.Perm.append_left f.installsAfterKeys
    (flatMap_perm_of_perm _ _ f.installsAfterIDs
      (fun id => List.Perm.map _ (h.filter _)))

/-- canInstall only reads the feature's edge keys (installsAfterKeys as a
set) and the dependency-key multiset of the installed prefix. -/
theorem canInstall_congr {f g : ResolvedFeature} (hfg : FeatEqv f g)
    {o1 o2 : List ResolvedFeature}
    (ho : (o1.map (fun x => x.dependencyKey)).Perm
      (o2.map (fun x => x.dependencyKey))) :
    canInstall f o1 = canInstall g o2 := by
  obtain ⟨_, _, _, hdok, _, hiak, _, _, _⟩ := hfg
  unfold canInstall
  have hany : ∀ dep : String,
      (o1.any (fun x => x.dependencyKey == dep)) =
      (o2.any (fun x => x.dependencyKey == dep)) := by
    intro dep
    have h1 := any_map_general (fun x : ResolvedFeature => x.dependencyKey)
      (fun s => s == dep) o1
    have h2 := any_map_general (fun x : ResolvedFeature => x.dependencyKey)
      (fun s => s == dep) o2
    rw [← h1, ← h2]
    exact perm_any ho _
  have hP : (fun dep => o1.any (fun x => x.dependencyKey == dep)) =
      (fun dep => o2.any (fun x => x.dependencyKey == dep)) :=
    funext hany
  have hQ : (fun dep => (dep == "") ||
        o1.any (fun x => x.dependencyKey == dep)) =
      (fun dep => (dep == "") ||
        o2.any (fun x => x.dependencyKey == dep)) :=
    funext (fun dep => by rw [hany dep])
  rw [hdok, hP, hQ, perm_all hiak]

/-- The nodes maps built from permuted feature lists with injective
dependency keys agree up to FeatEqv at every key. -/
theorem nodesFn_attach_eqv {l1 l2 : List ResolvedFeature} (hperm : l1.Perm l2)
    (hinj : ∀ f ∈ l1, ∀ g ∈ l1, f.dependencyKey = g.dependencyKey → f = g)
    (k : String) :
    FeatEqv (nodesFn (attachInstallsAfterKeys l1) k)
      (nodesFn (attachInstallsAfterKeys l2) k) := by
  unfold nodesFn attachInstallsAfterKeys
  cases hfind1 : (l1.map (attachOne l1)).reverse.find?
      (fun f => f.dependencyKey == k) with
  | none =>
    have hnone2 : (l2.map (attachOne l2)).reverse.find?
        (fun f => f.dependencyKey == k) = none := by
      rw [List.find?_eq_none]
      intro x hx
      rw [List.mem_reverse] at hx
      obtain ⟨f0, hf0, rfl⟩ := List.mem_map.mp hx
      have hmem : attachOne l1 f0 ∈ (l1.map (attachOne l1)).reverse := by
        rw [List.mem_reverse]
        exact List.mem_map.mpr ⟨f0, hperm.mem_iff.mpr hf0, rfl⟩
      have hn := List.find?_eq_none.mp hfind1 _ hmem
      simpa [attachOne_key] using hn
    rw [hnone2]
    exact featEqv_refl _
  | some g1 =>
    have hp1 := List.find?_some hfind1
    have hm1 := List.mem_of_find?_eq_some hfind1
    rw [List.mem_reverse] at hm1
    obtain ⟨f1, hf1, hg1⟩ := List.mem_map.mp hm1
    cases hfind2 : (l2.map (attachOne l2)).reverse.find?
        (fun f => f.dependencyKey == k) with
    | none =>
      exfalso
      have hmem : attachOne l2 f1 ∈ (l2.map (attachOne l2)).reverse := by
        rw [List.mem_reverse]
        exact List.mem_map.mpr ⟨f1, hperm.mem_iff.mp hf1, rfl⟩
      have hcontra := List.find?_eq_none.mp hfind2 _ hmem
      apply hcontra
      show ((attachOne l2 f1).dependencyKey == k) = true
      rw [attachOne_key]
      rw [← attachOne_key l1 f1, hg1]
      exact hp1
    | some g2 =>
      have hp2 := List.find?_some hfind2
      have hm2 := List.mem_of_find?_eq_some hfind2
      rw [List.mem_reverse] at hm2
      obtain ⟨f2, hf2, hg2⟩ := List.mem_map.mp hm2
      have hkey1 : f1.dependencyKey = k := by
        have h := hp1
        rw [← hg1, attachOne_key] at h
        exact eq_of_beq h
      have hkey2 : f2.dependencyKey = k := by
        have h := hp2
        rw [← hg2, attachOne_key] at h
        exact eq_of_beq h
      have hf12 : f1 = f2 :=
        hinj f1 hf1 f2 (hperm.mem_iff.mpr hf2) (by rw [hkey1, hkey2])
      subst hg1
      subst hg2
      subst hf12
      exact attachOne_eqv hperm f1

/-- orderLoop on an empty remaining set returns the accumulated order. -/
theorem orderLoop_nil (n : String → ResolvedFeature)
    (p : List (String × Nat)) (fuel : Nat) (o : List ResolvedFeature) :
    orderLoop n p fuel [] o = .ok o := by
  cases fuel <;> rfl

/-- The zero-fuel unfolding of orderLoop on a nonempty remaining set. -/
theorem orderLoop_zero_cons (n : String → ResolvedFeature)
    (p : List (String × Nat)) (a : String) (t : List String)
    (o : List ResolvedFeature) :
    orderLoop n p 0 (a :: t) o =
      (if ((a :: t).filter (fun k => canInstall (n k) o)).isEmpty then
        .error "feature dependency cycle detected"
      else .error "fuel exhausted") := rfl

/-- The successor-fuel unfolding of orderLoop on a nonempty remaining
set. -/
theorem orderLoop_succ_cons (n : String → ResolvedFeature)
    (p : List (String × Nat)) (fuel : Nat) (a : String) (t : List String)
    (o : List ResolvedFeature) :
    orderLoop n p (fuel + 1) (a :: t) o =
      (if ((a :: t).filter (fun k => canInstall (n k) o)).isEmpty then
        .error "feature dependency cycle detected"
      else
        orderLoop n p fuel
          ((a :: t).filter (fun k =>
            !((stableSort (fun x y => !(featureLess y x))
              ((((a :: t).filter (fun k => canInstall (n k) o)).filter
                (fun k => priorityOf p (n k).baseName ==
                  ((a :: t).filter (fun k => canInstall (n k) o)).foldl
                    (fun m k => max m (priorityOf p (n k).baseName)) 0)).map
                n)).any (fun f => f.dependencyKey == k))))
          (o ++ stableSort (fun x y => !(featureLess y x))
            ((((a :: t).filter (fun k => canInstall (n k) o)).filter
              (fun k => priorityOf p (n k).baseName ==
                ((a :: t).filter (fun k => canInstall (n k) o)).foldl
                  (fun m k => max m (priorityOf p (n k).baseName)) 0)).map
              n))) := rfl

/-- A list permutation-equal to the empty list is empty. -/
theorem perm_nil_eq {α : Type} {l : List α} (h : l.Perm []) : l = [] :=
  (List.Perm.nil_eq h.symm).symm

/-- orderLoop is insensitive to the supplied key order, to the order of
attached installsAfter keys, and to the key order of the accumulated
prefix, up to the baseName trace of the result. -/
theorem orderLoop_det (n1 n2 : String → ResolvedFeature)
    (p : List (String × Nat)) (hN : ∀ k, FeatEqv (n1 k) (n2 k)) :
    ∀ (fuel : Nat) (r1 r2 : List String) (o1 o2 : List ResolvedFeature),
      r1.Perm r2 →
      (o1.map (fun f => f.dependencyKey)).Perm
        (o2.map (fun f => f.dependencyKey)) →
      o1.map (fun f => f.baseName) = o2.map (fun f => f.baseName) →
      (∀ k ∈ r1, (n1 k).dependencyKey = k) →
      (orderLoop n1 p fuel r1 o1).map (fun l => l.map (fun f => f.baseName)) =
      (orderLoop n2 p fuel r2 o2).map (fun l => l.map (fun f => f.baseName))
    := by
  have hbn : ∀ k, (n2 k).baseName = (n1 k).baseName :=
    fun k => ((hN k).2.2.2.2.2.2.1).symm
  have hkeyeq : ∀ k, (n2 k).dependencyKey = (n1 k).dependencyKey :=
    fun k => ((hN k).2.2.1).symm
  intro fuel
  induction fuel with
  | zero =>
    intro r1 r2 o1 o2 hr ho hob h4
    cases r1 with
    | nil =>
      have hr2 : r2 = [] := by
        have := hr.length_eq
        cases r2 with
        | nil => rfl
        | cons b t2 => simp at this
      subst hr2
      rw [orderLoop_nil, orderLoop_nil]
      simp only [Except.map, hob]
    | cons a t =>
      cases r2 with
      | nil =>
        have := hr.length_eq
        simp at this
      | cons b t2 =>
        rw [orderLoop_zero_cons, orderLoop_zero_cons]
        have hpred : ∀ k, canInstall (n2 k) o2 = canInstall (n1 k) o1 :=
          fun k => (canInstall_congr (hN k) ho).symm
        have hround2 : (b :: t2).filter (fun k => canInstall (n2 k) o2) =
            (b :: t2).filter (fun k => canInstall (n1 k) o1) :=
          List.filter_congr (fun k _ => hpred k)
        have hroundperm :
            ((a :: t).filter (fun k => canInstall (n1 k) o1)).Perm
              ((b :: t2).filter (fun k => canInstall (n1 k) o1)) :=
          hr.filter _
        cases hre : ((a :: t).filter (fun k => canInstall (n1 k) o1)).isEmpty
        · have hre2 : ((b :: t2).filter (fun k =>
              canInstall (n2 k) o2)).isEmpty = false := by
            rw [hround2]
            cases hx : ((b :: t2).filter
                (fun k => canInstall (n1 k) o1)).isEmpty
            · rfl
            · rw [List.isEmpty_iff] at hx
              rw [hx] at hroundperm
              rw [perm_nil_eq hroundperm] at hre
              simp at hre
          rw [if_neg (by simp [hre]), if_neg (by simp [hre2])]
        · have hre2 : ((b :: t2).filter (fun k =>
              canInstall (n2 k) o2)).isEmpty = true := by
            rw [hround2, List.isEmpty_iff]
            rw [List.isEmpty_iff] at hre
            rw [hre] at hroundperm
            exact perm_nil_eq hroundperm.symm
          rw [if_pos (by simp [hre]), if_pos (by simp [hre2])]
  | succ fuel ih =>
    intro r1 r2 o1 o2 hr ho hob h4
    cases r1 with
    | nil =>
      have hr2 : r2 = [] := by
        have := hr.length_eq
        cases r2 with
        | nil => rfl
        | cons b t2 => simp at this
      subst hr2
      rw [orderLoop_nil, orderLoop_nil]
      simp only [Except.map, hob]
    | cons a t =>
      cases r2 with
      | nil =>
        have := hr.length_eq
        simp at this
      | cons b t2 =>
        rw [orderLoop_succ_cons, orderLoop_succ_cons]
        have hpred : ∀ k, canInstall (n2 k) o2 = canInstall (n1 k) o1 :=
          fun k => (canInstall_congr (hN k) ho).symm
        have hround2 : (b :: t2).filter (fun k => canInstall (n2 k) o2) =
            (b :: t2).filter (fun k => canInstall (n1 k) o1) :=
          List.filter_congr (fun k _ => hpred k)
        have hroundperm :
            ((a :: t).filter (fun k => canInstall (n1 k) o1)).Perm
              ((b :: t2).filter (fun k => canInstall (n1 k) o1)) :=
          hr.filter _
        cases hre : ((a :: t).filter (fun k => canInstall (n1 k) o1)).isEmpty
        case true =>
          have hre2 : ((b :: t2).filter (fun k =>
              canInstall (n2 k) o2)).isEmpty = true := by
            rw [hround2, List.isEmpty_iff]
            rw [List.isEmpty_iff] at hre
            rw [hre] at hroundperm
            exact perm_nil_eq hroundperm.symm
          rw [if_pos (by simp [hre]), if_pos (by simp [hre2])]
        case false =>
        have hre2 : ((b :: t2).filter (fun k =>
            canInstall (n2 k) o2)).isEmpty = false := by
          rw [hround2]
          cases hx : ((b :: t2).filter
              (fun k => canInstall (n1 k) o1)).isEmpty
          · rfl
          · rw [List.isEmpty_iff] at hx
            rw [hx] at hroundperm
            rw [perm_nil_eq hroundperm] at hre
            simp at hre
        rw [if_neg (by simp [hre]), if_neg (by simp [hre2])]
        have hg : ∀ k, priorityOf p (n2 k).baseName =
            priorityOf p (n1 k).baseName := fun k => by rw [hbn k]
        haveI : RightCommutative
            (fun (m : Nat) (k : String) =>
              max m (priorityOf p (n1 k).baseName)) :=
          ⟨fun b a1 a2 => by omega⟩
        have hmax : ((b :: t2).filter (fun k =>
              canInstall (n2 k) o2)).foldl
              (fun m k => max m (priorityOf p (n2 k).baseName)) 0 =
            ((a :: t).filter (fun k => canInstall (n1 k) o1)).foldl
              (fun m k => max m (priorityOf p (n1 k).baseName)) 0 := by
          rw [hround2]
          rw [List.foldl_ext
            (fun m k => max m (priorityOf p (n2 k).baseName))
            (fun m k => max m (priorityOf p (n1 k).baseName)) 0
            (fun m k _ => by simp only [hg k])]
          exact (hroundperm.symm.foldl_eq 0)
        have hck2 : ((b :: t2).filter (fun k =>
              canInstall (n2 k) o2)).filter
              (fun k => priorityOf p (n2 k).baseName ==
                ((b :: t2).filter (fun k => canInstall (n2 k) o2)).foldl
                  (fun m k => max m (priorityOf p (n2 k).baseName)) 0) =
            ((b :: t2).filter (fun k => canInstall (n1 k) o1)).filter
              (fun k => priorityOf p (n1 k).baseName ==
                ((a :: t).filter (fun k => canInstall (n1 k) o1)).foldl
                  (fun m k => max m (priorityOf p (n1 k).baseName)) 0) := by
          rw [hmax, hround2]
          exact List.filter_congr (fun k _ => by rw [hg k])
        have hckperm : (((a :: t).filter (fun k =>
              canInstall (n1 k) o1)).filter
              (fun k => priorityOf p (n1 k).baseName ==
                ((a :: t).filter (fun k => canInstall (n1 k) o1)).foldl
                  (fun m k => max m (priorityOf p (n1 k).baseName)) 0)).Perm
            (((b :: t2).filter (fun k => canInstall (n1 k) o1)).filter
              (fun k => priorityOf p (n1 k).baseName ==
                ((a :: t).filter (fun k => canInstall (n1 k) o1)).foldl
                  (fun m k => max m (priorityOf p (n1 k).baseName)) 0)) :=
          hroundperm.filter _
        set commit1 := stableSort (fun x y => !(featureLess y x))
          ((((a :: t).filter (fun k => canInstall (n1 k) o1)).filter
            (fun k => priorityOf p (n1 k).baseName ==
              ((a :: t).filter (fun k => canInstall (n1 k) o1)).foldl
                (fun m k => max m (priorityOf p (n1 k).baseName)) 0)).map
            n1) with hcommit1def
        set commit2 := stableSort (fun x y => !(featureLess y x))
          ((((b :: t2).filter (fun k => canInstall (n2 k) o2)).filter
            (fun k => priorityOf p (n2 k).baseName ==
              ((b :: t2).filter (fun k => canInstall (n2 k) o2)).foldl
                (fun m k => max m (priorityOf p (n2 k).baseName)) 0)).map
            n2) with hcommit2def
        have hc2 : commit2 = stableSort (fun x y => !(featureLess y x))
            ((((b :: t2).filter (fun k => canInstall (n1 k) o1)).filter
              (fun k => priorityOf p (n1 k).baseName ==
                ((a :: t).filter (fun k => canInstall (n1 k) o1)).foldl
                  (fun m k => max m (priorityOf p (n1 k).baseName)) 0)).map
              n2) := by
          rw [hcommit2def, hck2]
        have hsub1 : ∀ k ∈ (((a :: t).filter (fun k => canInstall (n1 k) o1)).filter
            (fun k => priorityOf p (n1 k).baseName ==
              ((a :: t).filter (fun k => canInstall (n1 k) o1)).foldl
                (fun m k => max m (priorityOf p (n1 k).baseName)) 0)),
            (n1 k).dependencyKey = k := by
          intro k hk
          exact h4 k (List.mem_filter.mp (List.mem_filter.mp hk).1).1
        have hsub2 : ∀ k ∈ (((b :: t2).filter (fun k => canInstall (n1 k) o1)).filter
            (fun k => priorityOf p (n1 k).baseName ==
              ((a :: t).filter (fun k => canInstall (n1 k) o1)).foldl
                (fun m k => max m (priorityOf p (n1 k).baseName)) 0)),
            (n2 k).dependencyKey = k := by
          intro k hk
          rw [hkeyeq k]
          exact h4 k (hr.mem_iff.mpr
            (List.mem_filter.mp (List.mem_filter.mp hk).1).1)
        have hmapkey1 : (commit1.map (fun f => f.dependencyKey)).Perm
            ((((a :: t).filter (fun k => canInstall (n1 k) o1)).filter
              (fun k => priorityOf p (n1 k).baseName ==
                ((a :: t).filter (fun k => canInstall (n1 k) o1)).foldl
                  (fun m k => max m (priorityOf p (n1 k).baseName)) 0))) := by
          have hp := (stableSort_perm (fun x y => !(featureLess y x))
            (((((a :: t).filter (fun k => canInstall (n1 k) o1)).filter
              (fun k => priorityOf p (n1 k).baseName ==
                ((a :: t).filter (fun k => canInstall (n1 k) o1)).foldl
                  (fun m k => max m (priorityOf p (n1 k).baseName)) 0))).map n1)).map
            (fun f : ResolvedFeature => f.dependencyKey)
          rw [← hcommit1def, List.map_map] at hp
          have heq := List.map_congr_left
            (l := (((a :: t).filter (fun k => canInstall (n1 k) o1)).filter
              (fun k => priorityOf p (n1 k).baseName ==
                ((a :: t).filter (fun k => canInstall (n1 k) o1)).foldl
                  (fun m k => max m (priorityOf p (n1 k).baseName)) 0)))
            (f := (fun f : ResolvedFeature => f.dependencyKey) ∘ n1)
            (g := fun k : String => k)
            (fun k hk => by
              simp only [Function.comp_apply]
              exact hsub1 k hk)
          rw [heq] at hp
          simpa using hp
        have hmapkey2 : (commit2.map (fun f => f.dependencyKey)).Perm
            ((((b :: t2).filter (fun k => canInstall (n1 k) o1)).filter
              (fun k => priorityOf p (n1 k).baseName ==
                ((a :: t).filter (fun k => canInstall (n1 k) o1)).foldl
                  (fun m k => max m (priorityOf p (n1 k).baseName)) 0))) := by
          have hp := (stableSort_perm (fun x y => !(featureLess y x))
            (((((b :: t2).filter (fun k => canInstall (n1 k) o1)).filter
              (fun k => priorityOf p (n1 k).baseName ==
                ((a :: t).filter (fun k => canInstall (n1 k) o1)).foldl
                  (fun m k => max m (priorityOf p (n1 k).baseName)) 0))).map n2)).map
            (fun f : ResolvedFeature => f.dependencyKey)
          rw [← hc2, List.map_map] at hp
          have heq := List.map_congr_left
            (l := (((b :: t2).filter (fun k => canInstall (n1 k) o1)).filter
              (fun k => priorityOf p (n1 k).baseName ==
                ((a :: t).filter (fun k => canInstall (n1 k) o1)).foldl
                  (fun m k => max m (priorityOf p (n1 k).baseName)) 0)))
            (f := (fun f : ResolvedFeature => f.dependencyKey) ∘ n2)
            (g := fun k : String => k)
            (fun k hk => by
              simp only [Function.comp_apply]
              exact hsub2 k hk)
          rw [heq] at hp
          simpa using hp
        have hkeyperm : (commit1.map (fun f => f.dependencyKey)).Perm
            (commit2.map (fun f => f.dependencyKey)) :=
          hmapkey1.trans (hckperm.trans hmapkey2.symm)
        have hpermbn : (commit1.map (fun f => f.baseName)).Perm
            (commit2.map (fun f => f.baseName)) := by
          have hp1 := (stableSort_perm (fun x y => !(featureLess y x))
            ((((a :: t).filter (fun k => canInstall (n1 k) o1)).filter
              (fun k => priorityOf p (n1 k).baseName ==
                ((a :: t).filter (fun k => canInstall (n1 k) o1)).foldl
                  (fun m k => max m (priorityOf p (n1 k).baseName)) 0)).map
              n1)).map (fun f : ResolvedFeature => f.baseName)
          have hp2 := (stableSort_perm (fun x y => !(featureLess y x))
            ((((b :: t2).filter (fun k => canInstall (n1 k) o1)).filter
              (fun k => priorityOf p (n1 k).baseName ==
                ((a :: t).filter (fun k => canInstall (n1 k) o1)).foldl
                  (fun m k => max m (priorityOf p (n1 k).baseName)) 0)).map
              n2)).map (fun f : ResolvedFeature => f.baseName)
          rw [← hcommit1def] at hp1
          rw [← hc2] at hp2
          rw [List.map_map] at hp1 hp2
          have hmid : ((((a :: t).filter (fun k => canInstall (n1 k) o1)).filter
              (fun k => priorityOf p (n1 k).baseName ==
                ((a :: t).filter (fun k => canInstall (n1 k) o1)).foldl
                  (fun m k => max m (priorityOf p (n1 k).baseName)) 0)).map
              ((fun f : ResolvedFeature => f.baseName) ∘ n1)).Perm
              ((((b :: t2).filter (fun k => canInstall (n1 k) o1)).filter
              (fun k => priorityOf p (n1 k).baseName ==
                ((a :: t).filter (fun k => canInstall (n1 k) o1)).foldl
                  (fun m k => max m (priorityOf p (n1 k).baseName)) 0)).map
              ((fun f : ResolvedFeature => f.baseName) ∘ n2)) := by
            have hfun : ∀ (l : List String),
                l.map ((fun f : ResolvedFeature => f.baseName) ∘ n2) =
                l.map ((fun f : ResolvedFeature => f.baseName) ∘ n1) :=
              fun l => List.map_congr_left (fun k _ => by
                simp only [Function.comp_apply]
                exact hbn k)
            rw [hfun]
            exact hckperm.map _
          exact hp1.trans (hmid.trans hp2.symm)
        have hsorted1 : (commit1.map (fun f => f.baseName)).Pairwise
            (fun s t => strLe s t = true) := by
          rw [hcommit1def]
          exact List.Pairwise.map _ (fun x y h => h)
            (stableSort_featureLess_sorted _)
        have hsorted2 : (commit2.map (fun f => f.baseName)).Pairwise
            (fun s t => strLe s t = true) := by
          rw [hcommit2def]
          exact List.Pairwise.map _ (fun x y h => h)
            (stableSort_featureLess_sorted _)
        have hobn : commit1.map (fun f => f.baseName) =
            commit2.map (fun f => f.baseName) :=
          perm_sorted_strings_eq hpermbn hsorted1 hsorted2
        have hanyck : ∀ k : String,
            (commit2.any (fun f => f.dependencyKey == k)) =
            (commit1.any (fun f => f.dependencyKey == k)) := by
          intro k
          have h1 := any_map_general (fun f : ResolvedFeature => f.dependencyKey)
            (fun s => s == k) commit1
          have h2 := any_map_general (fun f : ResolvedFeature => f.dependencyKey)
            (fun s => s == k) commit2
          rw [← h1, ← h2]
          exact perm_any hkeyperm.symm _
        have hrem2 : (b :: t2).filter
            (fun k => !(commit2.any (fun f => f.dependencyKey == k))) =
            (b :: t2).filter
            (fun k => !(commit1.any (fun f => f.dependencyKey == k))) :=
          List.filter_congr (fun k _ => by rw [hanyck k])
        rw [hrem2]
        exact ih _ _ _ _ (hr.filter _)
          (by rw [List.map_append, List.map_append]
              exact ho.append hkeyperm)
          (by rw [List.map_append, List.map_append, hob, hobn])
          (fun k hk => h4 k (List.mem_filter.mp hk).1)

/-- Attaching installsAfter keys does not change the dependency-key list. -/
theorem attach_map_key (l : List ResolvedFeature) :
    (attachInstallsAfterKeys l).map (fun f => f.dependencyKey) =
    l.map (fun f => f.dependencyKey) := by
  unfold attachInstallsAfterKeys
  rw [List.map_map]
  exact List.map_congr_left (fun f _ => rfl)

/-- Attaching installsAfter keys does not change the baseName list. -/
theorem attach_map_baseName (l : List ResolvedFeature) :
    (attachInstallsAfterKeys l).map (fun f => f.baseName) =
    l.map (fun f => f.baseName) := by
  unfold attachInstallsAfterKeys
  rw [List.map_map]
  exact List.map_congr_left (fun f _ => rfl)

/-- validateOverrideUsage only reads the baseName multiset of the
features. -/
theorem validateOverrideUsage_congr (p : List (String × Nat))
    {l1 l2 : List ResolvedFeature}
    (h : (l1.map (fun f => f.baseName)).Perm
      (l2.map (fun f => f.baseName))) :
    validateOverrideUsage p l1 = validateOverrideUsage p l2 := by
  unfold validateOverrideUsage
  by_cases hp : p = []
  · rw [if_pos hp, if_pos hp]
  · rw [if_neg hp, if_neg hp]
    have hpred : ∀ q : String × Nat,
        (!(l1.any (fun f => f.baseName == q.1))) =
        (!(l2.any (fun f => f.baseName == q.1))) := by
      intro q
      have h1 := any_map_general (fun f : ResolvedFeature => f.baseName)
        (fun s => s == q.1) l1
      have h2 := any_map_general (fun f : ResolvedFeature => f.baseName)
        (fun s => s == q.1) l2
      rw [← h1, ← h2, perm_any h]
    have hfun : (fun q : String × Nat =>
          !(l1.any (fun f => f.baseName == q.1))) =
        (fun q : String × Nat =>
          !(l2.any (fun f => f.baseName == q.1))) :=
      funext hpred
    rw [hfun]

/-- C2 (amended): for any two permutations of the same multiset of resolved
features whose dependency keys identify features uniquely, orderFeatures
yields the same result up to the baseName trace: the same error, or orders
with identical baseName sequences.  (Without the key-uniqueness hypothesis
the claim is false: the Go `nodes` map keeps the last feature per key, see
the counterexample.) -/
theorem orderFeatures_baseName_deterministic (l1 l2 : List ResolvedFeature)
    (ov : List String) (hperm : l1.Perm l2)
    (hinj : ∀ f ∈ l1, ∀ g ∈ l1, f.dependencyKey = g.dependencyKey → f = g) :
    (orderFeatures l1 ov).map (fun l => l.map (fun f => f.baseName)) =
    (orderFeatures l2 ov).map (fun l => l.map (fun f => f.baseName)) := by
  by_cases hnil : l1 = []
  · have h2 : l2 = [] := by
      rw [hnil] at hperm
      exact (List.Perm.nil_eq hperm).symm
    rw [hnil, h2]
  · have h2 : l2 ≠ [] := by
      intro h
      rw [h] at hperm
      exact hnil (perm_nil_eq hperm)
    simp only [orderFeatures]
    rw [if_neg (by simp [List.isEmpty_iff, hnil]),
      if_neg (by simp [List.isEmpty_iff, h2])]
    rw [show (attachInstallsAfterKeys l2).length =
        (attachInstallsAfterKeys l1).length from by
      unfold attachInstallsAfterKeys
      rw [List.length_map, List.length_map, hperm.length_eq]]
    have hN := nodesFn_attach_eqv hperm hinj
    have hremperm : (((attachInstallsAfterKeys l1).map
          (fun f => f.dependencyKey)).dedup).Perm
        (((attachInstallsAfterKeys l2).map
          (fun f => f.dependencyKey)).dedup) := by
      rw [attach_map_key, attach_map_key]
      exact (hperm.map _).dedup
    have h4init : ∀ k ∈ ((attachInstallsAfterKeys l1).map
        (fun f => f.dependencyKey)).dedup,
        (nodesFn (attachInstallsAfterKeys l1) k).dependencyKey = k := by
      intro k hk
      rw [List.mem_dedup] at hk
      obtain ⟨f, hf, hkey⟩ := List.mem_map.mp hk
      unfold nodesFn
      cases hfind : (attachInstallsAfterKeys l1).reverse.find?
          (fun g => g.dependencyKey == k) with
      | none =>
        exfalso
        have hmem : f ∈ (attachInstallsAfterKeys l1).reverse := by
          rw [List.mem_reverse]
          exact hf
        have hno := List.find?_eq_none.mp hfind _ hmem
        apply hno
        show (f.dependencyKey == k) = true
        rw [hkey]
        exact beq_self_eq_true k
      | some g =>
        have hp := List.find?_some hfind
        show g.dependencyKey = k
        exact eq_of_beq hp
    have hmain := orderLoop_det (nodesFn (attachInstallsAfterKeys l1))
      (nodesFn (attachInstallsAfterKeys l2)) (computeOverridePriority ov) hN
      (attachInstallsAfterKeys l1).length _ _ [] [] hremperm
      (List.Perm.refl _) rfl h4init
    have hbnperm : ((attachInstallsAfterKeys l1).map
          (fun f => f.baseName)).Perm
        ((attachInstallsAfterKeys l2).map (fun f => f.baseName)) := by
      rw [attach_map_baseName, attach_map_baseName]
      exact hperm.map _
    have hval := validateOverrideUsage_congr (computeOverridePriority ov)
      hbnperm
    cases hL1 : orderLoop (nodesFn (attachInstallsAfterKeys l1))
        (computeOverridePriority ov) (attachInstallsAfterKeys l1).length
        (((attachInstallsAfterKeys l1).map
          (fun f => f.dependencyKey)).dedup) [] with
    | error e1 =>
      cases hL2 : orderLoop (nodesFn (attachInstallsAfterKeys l2))
          (computeOverridePriority ov) (attachInstallsAfterKeys l1).length
          (((attachInstallsAfterKeys l2).map
            (fun f => f.dependencyKey)).dedup) [] with
      | error e2 =>
        rw [hL1, hL2] at hmain
        simp only [Except.map] at hmain
        injection hmain with h
        rw [h]
      | ok o2 =>
        rw [hL1, hL2] at hmain
        simp [Except.map] at hmain
    | ok o1 =>
      cases hL2 : orderLoop (nodesFn (attachInstallsAfterKeys l2))
          (computeOverridePriority ov) (attachInstallsAfterKeys l1).length
          (((attachInstallsAfterKeys l2).map
            (fun f => f.dependencyKey)).dedup) [] with
      | error e2 =>
        rw [hL1, hL2] at hmain
        simp [Except.map] at hmain
      | ok o2 =>
        rw [hL1, hL2] at hmain
        simp only [Except.map, Except.ok.injEq] at hmain
        rw [hval]
        cases hv : validateOverrideUsage (computeOverridePriority ov)
            (attachInstallsAfterKeys l2) with
        | error e => rfl
        | ok u =>
          simp only [Except.map]
          rw [hmain]

/-- C2 counterexample: two features sharing the dependency key "K" (one
installable, one depending on a missing key).  The two input orders are a
permutation of each other, yet one run fails with a cycle error while the
other succeeds, because the Go nodes map keeps whichever feature came last. -/
theorem orderFeatures_det_counterexample :
    ([mkOrderFeature "K" "f" [], mkOrderFeature "K" "g" ["X"]]).Perm
      [mkOrderFeature "K" "g" ["X"], mkOrderFeature "K" "f" []] ∧
    (orderFeatures [mkOrderFeature "K" "f" [],
        mkOrderFeature "K" "g" ["X"]] []).map
      (fun l => l.map (fun f => f.baseName)) ≠
    (orderFeatures [mkOrderFeature "K" "g" ["X"],
        mkOrderFeature "K" "f" []] []).map
      (fun l => l.map (fun f => f.baseName)) := by
  constructor
  · exact List.Perm.swap _ _ _
  · intro h
    have h1 : (orderFeatures [mkOrderFeature "K" "f" [],
          mkOrderFeature "K" "g" ["X"]] []).map
        (fun l => l.map (fun f => f.baseName)) =
        (.error "feature dependency cycle detected" :
          Except String (List String)) := rfl
    have h2 : (orderFeatures [mkOrderFeature "K" "g" ["X"],
          mkOrderFeature "K" "f" []] []).map
        (fun l => l.map (fun f => f.baseName)) =
        (.ok ["f"] : Except String (List String)) := rfl
    rw [h1, h2] at h
    exact Except.noConfusion h

/-- C2 witness: the amended determinism theorem applied to a concrete pair
of feature lists with distinct dependency keys, supplied in both orders. -/
theorem orderFeatures_baseName_deterministic_witness :
    (orderFeatures [mkOrderFeature "A" "a" [],
        mkOrderFeature "B" "b" []] []).map
      (fun l => l.map (fun f => f.baseName)) =
    (orderFeatures [mkOrderFeature "B" "b" [],
        mkOrderFeature "A" "a" []] []).map
      (fun l => l.map (fun f => f.baseName)) :=
  orderFeatures_baseName_deterministic _ _ []
    (List.Perm.swap _ _ _) (by decide)

/-- An element of a take is at an index below the take bound. -/
theorem mem_take_get {α : Type} (l : List α) (i : Nat) (x : α)
    (h : x ∈ l.take i) :
    ∃ j, ∃ hj : j < l.length, j < i ∧ l.get ⟨j, hj⟩ = x := by
  obtain ⟨j, hj, hx⟩ := List.getElem_of_mem h
  rw [List.length_take] at hj
  have hj1 : j < l.length := by omega
  have hj2 : j < i := by omega
  refine ⟨j, hj1, hj2, ?_⟩
  rw [List.get_eq_getElem, ← hx]
  exact (List.getElem_take l).symm

/-- Appending a block whose members can all be installed on top of `o`
preserves the linear-extension invariant. -/
theorem linext_append (o cs : List ResolvedFeature)
    (ho : ∀ i, (hi : i < o.length) → ∀ dep,
      dep ∈ featureEdgeKeys o[i] →
      dep ∈ (o.take i).map (fun f => f.dependencyKey))
    (hc : ∀ f ∈ cs, canInstall f o = true) :
    ∀ i, (hi : i < (o ++ cs).length) → ∀ dep,
      dep ∈ featureEdgeKeys (o ++ cs)[i] →
      dep ∈ ((o ++ cs).take i).map (fun f => f.dependencyKey) := by
  intro i hi dep hdep
  by_cases hio : i < o.length
  · rw [List.getElem_append_left hio] at hdep
    rw [List.take_append_of_le_length (by omega)]
    exact ho i hio dep hdep
  · have hio' : o.length ≤ i := by omega
    rw [List.getElem_append_right hio'] at hdep
    have hlen : i - o.length < cs.length := by
      rw [List.length_append] at hi
      omega
    have hfmem : cs[i - o.length] ∈ cs := List.getElem_mem hlen
    have hci := hc _ hfmem
    unfold canInstall at hci
    rw [Bool.and_eq_true] at hci
    obtain ⟨h1, h2⟩ := hci
    have hmem : dep ∈ o.map (fun f => f.dependencyKey) := by
      unfold featureEdgeKeys at hdep
      rw [List.mem_append] at hdep
      rcases hdep with hdep | hdep
      · rw [List.all_eq_true] at h1
        have hd := h1 dep hdep
        rw [List.any_eq_true] at hd
        obtain ⟨g, hg, hgk⟩ := hd
        exact List.mem_map.mpr ⟨g, hg, eq_of_beq hgk⟩
      · rw [List.mem_filter] at hdep
        obtain ⟨hdep1, hdep2⟩ := hdep
        rw [List.all_eq_true] at h2
        have hd := h2 dep hdep1
        rw [Bool.or_eq_true] at hd
        rcases hd with hx | hx
        · exact absurd (eq_of_beq hx) (of_decide_eq_true hdep2)
        · rw [List.any_eq_true] at hx
          obtain ⟨g, hg, hgk⟩ := hx
          exact List.mem_map.mpr ⟨g, hg, eq_of_beq hgk⟩
    rw [List.take_append_eq_append_take, List.take_of_length_le hio',
      List.map_append, List.mem_append]
    exact Or.inl hmem

/-- A member of the sorted image of a list comes from a list element. -/
theorem mem_stableSort_map {α β : Type} (le : β → β → Bool) (g : α → β)
    (l : List α) {x : β} (hx : x ∈ stableSort le (l.map g)) :
    ∃ k ∈ l, g k = x :=
  List.mem_map.mp ((stableSort_perm le (l.map g)).mem_iff.mp hx)

/-- Every key appearing in a feature list is the key of its nodes-map
entry. -/
theorem nodesFn_key (L : List ResolvedFeature) :
    ∀ k ∈ (L.map (fun f => f.dependencyKey)).dedup,
      (nodesFn L k).dependencyKey = k := by
  intro k hk
  rw [List.mem_dedup] at hk
  obtain ⟨f, hf, hkey⟩ := List.mem_map.mp hk
  unfold nodesFn
  cases hfind : L.reverse.find? (fun g => g.dependencyKey == k) with
  | none =>
    exfalso
    have hmem : f ∈ L.reverse := List.mem_reverse.mpr hf
    have hno := List.find?_eq_none.mp hfind _ hmem
    apply hno
    show (f.dependencyKey == k) = true
    rw [hkey]
    exact beq_self_eq_true k
  | some g =>
    have hp := List.find?_some hfind
    show g.dependencyKey = k
    exact eq_of_beq hp

/-- The only orderLoop errors are the cycle error and fuel exhaustion. -/
theorem orderLoop_error_shape (n : String → ResolvedFeature)
    (p : List (String × Nat)) :
    ∀ (fuel : Nat) (r : List String) (o : List ResolvedFeature) (e : String),
      orderLoop n p fuel r o = .error e →
      e = "feature dependency cycle detected" ∨ e = "fuel exhausted" := by
  intro fuel
  induction fuel with
  | zero =>
    intro r o e h
    cases r with
    | nil =>
      rw [orderLoop_nil] at h
      simp at h
    | cons a t =>
      rw [orderLoop_zero_cons] at h
      by_cases hre : (((a :: t).filter
          (fun k => canInstall (n k) o)).isEmpty : Bool) = true
      · rw [if_pos hre] at h
        injection h with h2
        exact Or.inl h2.symm
      · rw [if_neg hre] at h
        injection h with h2
        exact Or.inr h2.symm
  | succ fuel ih =>
    intro r o e h
    cases r with
    | nil =>
      rw [orderLoop_nil] at h
      simp at h
    | cons a t =>
      rw [orderLoop_succ_cons] at h
      by_cases hre : (((a :: t).filter
          (fun k => canInstall (n k) o)).isEmpty : Bool) = true
      · rw [if_pos hre] at h
        injection h with h2
        exact Or.inl h2.symm
      · rw [if_neg hre] at h
        exact ih _ _ _ h

/-- Starting with enough fuel, orderLoop never reports fuel exhaustion:
every committed round removes at least one remaining key. -/
theorem orderLoop_no_fuel (n : String → ResolvedFeature)
    (p : List (String × Nat)) :
    ∀ (fuel : Nat) (r : List String) (o : List ResolvedFeature),
      (∀ k ∈ r, (n k).dependencyKey = k) → r.length ≤ fuel →
      orderLoop n p fuel r o ≠ .error "fuel exhausted" := by
  intro fuel
  induction fuel with
  | zero =>
    intro r o h4 hlen
    cases r with
    | nil =>
      rw [orderLoop_nil]
      simp
    | cons a t => simp at hlen
  | succ fuel ih =>
    intro r o h4 hlen
    cases r with
    | nil =>
      rw [orderLoop_nil]
      simp
    | cons a t =>
      rw [orderLoop_succ_cons]
      by_cases hre : (((a :: t).filter
          (fun k => canInstall (n k) o)).isEmpty : Bool) = true
      · rw [if_pos hre]
        intro h
        injection h with h2
        exact absurd h2 (by decide)
      · rw [if_neg hre]
        apply ih
        · exact fun k hk => h4 k (List.mem_filter.mp hk).1
        · have hne : (a :: t).filter (fun k => canInstall (n k) o) ≠ [] := by
            intro hfil
            rw [hfil] at hre
            exact hre rfl
          obtain ⟨k0, hk0, hk0max⟩ := foldl_max_mem
            (fun k => priorityOf p (n k).baseName) _ hne
          have hk0ck : k0 ∈ ((a :: t).filter
              (fun k => canInstall (n k) o)).filter
              (fun k => priorityOf p (n k).baseName ==
                ((a :: t).filter (fun k => canInstall (n k) o)).foldl
                  (fun m k => max m (priorityOf p (n k).baseName)) 0) :=
            List.mem_filter.mpr ⟨hk0, by
              rw [hk0max]
              exact beq_self_eq_true _⟩
          have hfmem : n k0 ∈ stableSort (fun x y => !(featureLess y x))
              ((((a :: t).filter (fun k => canInstall (n k) o)).filter
                (fun k => priorityOf p (n k).baseName ==
                  ((a :: t).filter (fun k => canInstall (n k) o)).foldl
                    (fun m k => max m (priorityOf p (n k).baseName)) 0)).map
                n) :=
            (stableSort_perm _ _).mem_iff.mpr
              (List.mem_map.mpr ⟨k0, hk0ck, rfl⟩)
          have hk0r : k0 ∈ (a :: t) := (List.mem_filter.mp hk0).1
          have hany : (stableSort (fun x y => !(featureLess y x))
              ((((a :: t).filter (fun k => canInstall (n k) o)).filter
                (fun k => priorityOf p (n k).baseName ==
                  ((a :: t).filter (fun k => canInstall (n k) o)).foldl
                    (fun m k => max m (priorityOf p (n k).baseName)) 0)).map
                n)).any (fun f => f.dependencyKey == k0) = true := by
            rw [List.any_eq_true]
            refine ⟨n k0, hfmem, ?_⟩
            rw [h4 k0 hk0r]
            exact beq_self_eq_true k0
          have hlt := filter_length_lt
            (fun k => !((stableSort (fun x y => !(featureLess y x))
              ((((a :: t).filter (fun k => canInstall (n k) o)).filter
                (fun k => priorityOf p (n k).baseName ==
                  ((a :: t).filter (fun k => canInstall (n k) o)).foldl
                    (fun m k => max m (priorityOf p (n k).baseName)) 0)).map
                n)).any (fun f => f.dependencyKey == k)))
            (a :: t) k0 hk0r (by simp only [hany, Bool.not_true])
          simp only [List.length_cons] at hlen hlt
          omega

/-- validateOverrideUsage errors carry the unknown-feature prefix. -/
theorem validateOverrideUsage_error_shape (p : List (String × Nat))
    (l : List ResolvedFeature) (e : String)
    (h : validateOverrideUsage p l = .error e) :
    ∃ s, e = "overrideFeatureInstallOrder includes unknown feature: " ++ s := by
  unfold validateOverrideUsage at h
  by_cases hp : p = []
  · rw [if_pos hp] at h
    simp at h
  · rw [if_neg hp] at h
    cases hf : p.find? (fun q => !(l.any (fun f => f.baseName == q.1))) with
    | none =>
      rw [hf] at h
      simp at h
    | some q =>
      rw [hf] at h
      injection h with h2
      exact ⟨q.1, h2.symm⟩

/-- The orderLoop invariant: a successful loop yields an order with
pairwise-distinct dependency keys in which every feature's edges point to
strictly earlier entries. -/
theorem orderLoop_linext (n : String → ResolvedFeature)
    (p : List (String × Nat)) :
    ∀ (fuel : Nat) (r : List String) (o final : List ResolvedFeature),
      orderLoop n p fuel r o = .ok final →
      (∀ k ∈ r, (n k).dependencyKey = k) →
      r.Nodup →
      (o.map (fun f => f.dependencyKey)).Nodup →
      (∀ k ∈ r, k ∉ o.map (fun f => f.dependencyKey)) →
      (∀ i, (hi : i < o.length) → ∀ dep,
        dep ∈ featureEdgeKeys o[i] →
        dep ∈ (o.take i).map (fun f => f.dependencyKey)) →
      ((final.map (fun f => f.dependencyKey)).Nodup ∧
        ∀ i, (hi : i < final.length) → ∀ dep,
          dep ∈ featureEdgeKeys final[i] →
          dep ∈ (final.take i).map (fun f => f.dependencyKey)) := by
  intro fuel
  induction fuel with
  | zero =>
    intro r o final hok h4 hnr hno hdisj hlin
    cases r with
    | nil =>
      rw [orderLoop_nil] at hok
      injection hok with h
      subst h
      exact ⟨hno, hlin⟩
    | cons a t =>
      rw [orderLoop_zero_cons] at hok
      by_cases hre : (((a :: t).filter
          (fun k => canInstall (n k) o)).isEmpty : Bool) = true
      · rw [if_pos hre] at hok
        simp at hok
      · rw [if_neg hre] at hok
        simp at hok
  | succ fuel ih =>
    intro r o final hok h4 hnr hno hdisj hlin
    cases r with
    | nil =>
      rw [orderLoop_nil] at hok
      injection hok with h
      subst h
      exact ⟨hno, hlin⟩
    | cons a t =>
      rw [orderLoop_succ_cons] at hok
      by_cases hre : (((a :: t).filter
          (fun k => canInstall (n k) o)).isEmpty : Bool) = true
      · rw [if_pos hre] at hok
        simp at hok
      · rw [if_neg hre] at hok
        set ck := ((a :: t).filter (fun k => canInstall (n k) o)).filter
          (fun k => priorityOf p (n k).baseName ==
            ((a :: t).filter (fun k => canInstall (n k) o)).foldl
              (fun m k => max m (priorityOf p (n k).baseName)) 0)
          with hckdef
        set commit := stableSort (fun x y => !(featureLess y x)) (ck.map n)
          with hcommitdef
        have hckr : ∀ k ∈ ck, k ∈ (a :: t) ∧ canInstall (n k) o = true := by
          intro k hk
          rw [hckdef] at hk
          have hk2 := (List.mem_filter.mp hk).1
          exact ⟨(List.mem_filter.mp hk2).1, (List.mem_filter.mp hk2).2⟩
        have hcan : ∀ f ∈ commit, canInstall f o = true := by
          intro f hf
          rw [hcommitdef] at hf
          obtain ⟨k, hk, hnk⟩ := mem_stableSort_map _ n ck hf
          rw [← hnk]
          exact (hckr k hk).2
        have hsub : ∀ k ∈ ck, (n k).dependencyKey = k :=
          fun k hk => h4 k (hckr k hk).1
        have hcommitkeys : (commit.map (fun f => f.dependencyKey)).Perm ck := by
          rw [hcommitdef]
          have hp2 := (stableSort_perm (fun x y => !(featureLess y x))
            (ck.map n)).map (fun f : ResolvedFeature => f.dependencyKey)
          rw [List.map_map] at hp2
          have heq := List.map_congr_left
            (l := ck)
            (f := (fun f : ResolvedFeature => f.dependencyKey) ∘ n)
            (g := fun k : String => k)
            (fun k hk => by
              simp only [Function.comp_apply]
              exact hsub k hk)
          rw [heq] at hp2
          simpa using hp2
        have hcknodup : ck.Nodup := by
          rw [hckdef]
          exact List.Nodup.filter _ (List.Nodup.filter _ hnr)
        have hno' : ((o ++ commit).map (fun f => f.dependencyKey)).Nodup := by
          rw [List.map_append, List.nodup_append]
          refine ⟨hno, (hcommitkeys.nodup_iff).mpr hcknodup, ?_⟩
          intro x hx1 hx2
          have hx3 : x ∈ ck := hcommitkeys.mem_iff.mp hx2
          exact hdisj x (hckr x hx3).1 hx1
        have hdisj' : ∀ k ∈ (a :: t).filter
            (fun k => !(commit.any (fun f => f.dependencyKey == k))),
            k ∉ (o ++ commit).map (fun f => f.dependencyKey) := by
          intro k hk
          have hk1 := (List.mem_filter.mp hk).1
          have hk2 := (List.mem_filter.mp hk).2
          rw [List.map_append, List.mem_append]
          intro hmem
          rcases hmem with hmem | hmem
          · exact hdisj k hk1 hmem
          · obtain ⟨f, hf, hfk⟩ := List.mem_map.mp hmem
            have : commit.any (fun g => g.dependencyKey == k) = true := by
              rw [List.any_eq_true]
              exact ⟨f, hf, by rw [hfk]; exact beq_self_eq_true k⟩
            rw [this] at hk2
            simp at hk2
        exact ih _ _ _ hok
          (fun k hk => h4 k (List.mem_filter.mp hk).1)
          (List.Nodup.filter _ hnr)
          hno'
          hdisj'
          (linext_append o commit hlin hcan)

/-- C1: whenever orderFeatures returns an order, every feature in it sits
strictly after a feature carrying each of its dependsOn keys and non-empty
installsAfter keys, and strictly after every feature carrying such a key
(the keys in the order are pairwise distinct); a round in which no
remaining feature has all its edges installed makes the loop return the
cycle error; and the only errors orderFeatures produces are the cycle
error and the unknown-override error (in particular the fuel bound of the
embedding is never hit). -/
theorem orderFeatures_linear_extension (features : List ResolvedFeature)
    (ov : List String) :
    (∀ order, orderFeatures features ov = .ok order →
      ∀ i, (hi : i < order.length) → ∀ dep,
        dep ∈ featureEdgeKeys order[i] →
        (∃ j, ∃ hj : j < order.length, j < i ∧
          (order.get ⟨j, hj⟩).dependencyKey = dep) ∧
        (∀ j, (hj : j < order.length) →
          (order.get ⟨j, hj⟩).dependencyKey = dep → j < i)) ∧
    (∀ (nodes : String → ResolvedFeature) (priority : List (String × Nat))
        (fuel : Nat) (remaining : List String)
        (order : List ResolvedFeature),
      remaining ≠ [] →
      remaining.filter (fun k => canInstall (nodes k) order) = [] →
      orderLoop nodes priority fuel remaining order =
        .error "feature dependency cycle detected") ∧
    (∀ e, orderFeatures features ov = .error e →
      e = "feature dependency cycle detected" ∨
      ∃ s, e = "overrideFeatureInstallOrder includes unknown feature: " ++ s)
    := by
  refine ⟨?_, ?_, ?_⟩
  · intro order hok i hi dep hdep
    by_cases hnil : features = []
    · rw [hnil] at hok
      have hempty : orderFeatures [] ov = .ok [] := rfl
      rw [hempty] at hok
      injection hok with horder
      subst horder
      simp at hi
    · simp only [orderFeatures] at hok
      rw [if_neg (by simp [List.isEmpty_iff, hnil])] at hok
      cases hL : orderLoop (nodesFn (attachInstallsAfterKeys features))
          (computeOverridePriority ov) (attachInstallsAfterKeys features).length
          (((attachInstallsAfterKeys features).map
            (fun f => f.dependencyKey)).dedup) [] with
      | error e0 =>
        rw [hL] at hok
        simp at hok
      | ok o2 =>
        rw [hL] at hok
        cases hv : validateOverrideUsage (computeOverridePriority ov)
            (attachInstallsAfterKeys features) with
        | error e0 =>
          rw [hv] at hok
          simp at hok
        | ok u =>
          rw [hv] at hok
          injection hok with horder
          subst horder
          have hres := orderLoop_linext
            (nodesFn (attachInstallsAfterKeys features))
            (computeOverridePriority ov)
            (attachInstallsAfterKeys features).length
            (((attachInstallsAfterKeys features).map
              (fun f => f.dependencyKey)).dedup) [] o2 hL
            (nodesFn_key _) (List.nodup_dedup _) (by simp)
            (by intro k _ hmem; simp at hmem)
            (by intro i2 hi2 dep2 hdep2; simp at hi2)
          obtain ⟨hnodup, hlin⟩ := hres
          have htake := hlin i hi dep hdep
          obtain ⟨g, hg, hgk⟩ := List.mem_map.mp htake
          obtain ⟨j, hj, hji, hjget⟩ := mem_take_get o2 i g hg
          constructor
          · refine ⟨j, hj, hji, ?_⟩
            rw [hjget]
            exact hgk
          · intro j2 hj2 hkey2
            have hb2 : j2 < (o2.map
                (fun f => f.dependencyKey)).length := by
              rw [List.length_map]
              exact hj2
            have hb1 : j < (o2.map
                (fun f => f.dependencyKey)).length := by
              rw [List.length_map]
              exact hj
            have e1 : (o2.map (fun f => f.dependencyKey))[j2] = dep := by
              rw [List.getElem_map]
              rw [List.get_eq_getElem] at hkey2
              exact hkey2
            have e2 : (o2.map (fun f => f.dependencyKey))[j] = dep := by
              rw [List.getElem_map]
              rw [List.get_eq_getElem] at hjget
              rw [hjget]
              exact hgk
            have hjj : j2 = j :=
              (List.Nodup.getElem_inj_iff hnodup).mp (e1.trans e2.symm)
            rw [hjj]
            exact hji
  · intro nodes priority fuel remaining order hne hempty
    cases remaining with
    | nil => exact absurd rfl hne
    | cons a t =>
      cases fuel with
      | zero =>
        rw [orderLoop_zero_cons, if_pos (by rw [hempty]; rfl)]
      | succ fuel =>
        rw [orderLoop_succ_cons, if_pos (by rw [hempty]; rfl)]
  · intro e herr
    by_cases hnil : features = []
    · rw [hnil] at herr
      have hempty : orderFeatures [] ov = .ok [] := rfl
      rw [hempty] at herr
      simp at herr
    · simp only [orderFeatures] at herr
      rw [if_neg (by simp [List.isEmpty_iff, hnil])] at herr
      cases hL : orderLoop (nodesFn (attachInstallsAfterKeys features))
          (computeOverridePriority ov) (attachInstallsAfterKeys features).length
          (((attachInstallsAfterKeys features).map
            (fun f => f.dependencyKey)).dedup) [] with
      | error e0 =>
        rw [hL] at herr
        injection herr with he
        subst he
        have hshape := orderLoop_error_shape _ _ _ _ _ _ hL
        rcases hshape with h | h
        · exact Or.inl h
        · exfalso
          have hlen : (((attachInstallsAfterKeys features).map
              (fun f => f.dependencyKey)).dedup).length ≤
              (attachInstallsAfterKeys features).length := by
            have h1 := (List.dedup_sublist
              ((attachInstallsAfterKeys features).map
                (fun f => f.dependencyKey))).length_le
            rw [List.length_map] at h1
            exact h1
          exact orderLoop_no_fuel _ _ _ _ _ (nodesFn_key _) hlen
            (by rw [hL, h])
      | ok o2 =>
        rw [hL] at herr
        cases hv : validateOverrideUsage (computeOverridePriority ov)
            (attachInstallsAfterKeys features) with
        | error e0 =>
          rw [hv] at herr
          injection herr with he
          subst he
          exact Or.inr (validateOverrideUsage_error_shape _ _ _ hv)
        | ok u =>
          rw [hv] at herr
          simp at herr

/-- C1 witness: the linear-extension theorem applied to a concrete plan in
which feature b depends on feature a's key; the feature at index 1 has its
dependency at an index strictly before it. -/
theorem orderFeatures_linear_extension_witness :
    ∃ j, ∃ hj : j < ([mkOrderFeature "A" "a" [],
        mkOrderFeature "B" "b" ["A"]] : List ResolvedFeature).length,
      j < 1 ∧ (([mkOrderFeature "A" "a" [],
          mkOrderFeature "B" "b" ["A"]] : List ResolvedFeature).get
        ⟨j, hj⟩).dependencyKey = "A" :=
  ((orderFeatures_linear_extension
      [mkOrderFeature "A" "a" [], mkOrderFeature "B" "b" ["A"]] []).1
    [mkOrderFeature "A" "a" [], mkOrderFeature "B" "b" ["A"]] rfl
    1 (by decide) "A" (by decide)).1
